import Mathlib

/-!
Clockyuwu: the event calendar, the set activator and the effect distributor

A shallow embedding of `events/eventsData.go`, of the `/ranking` branch and the
`/update user` branch of `manageCommands` in `commands.go`, and of
`structs/user.go`.

Conventions of the embedding

* Go `int` is `Int`. Counters and targets, which are bounded by the length of a
  slice or by the 1440 minutes of a day, are added exactly; the one sum of
  arbitrary values, `Stats.EnabledPointsSum`, is added with the wrap-around of
  the 64-bit `int` (`wrapInt`).
* A `float64` is the rational number it denotes. A product is the exact product
  rounded to the nearest `float64`, ties to even (`roundFloat64`, `mulFloat64`),
  and `int(x)` truncates toward zero (`goInt`), so that `int(x * float64(n))` is
  `scaleInt x n`. A decimal constant of the source that is not a `float64`, such
  as `0.6`, is written as the fraction `6 / 10` and rounded to the nearest
  `float64` where it enters a product (`mulFloat64` rounds its operands).
  Infinities, NaN and conversions of values beyond the range of `int` are not
  modelled.
* `math/rand` is a supply of raw draws, a `List Nat` consumed from the left:
  `r.Intn(n)` panics for `n <= 0` and otherwise turns the next draw `d` into
  `d % n`; `r.Float64()` turns it into `(d % 2^53) / 2^53`, a value of `[0, 1)`.
  The generators the source creates one after the other all read from the same
  supply, so a list of draws fixes every random choice of a call.
* A call ends in one of three ways (`Run`): it returns (`done`), it panics
  (`crash`), or it is still inside a loop when the supplied draws are used up
  (`starved`). A call finishes on an infinite sequence of draws exactly when it
  is `done` on one of its finite initial segments.
* A Go map with string keys is an association list read through `StrMap.get?`
  (first match), written through `StrMap.set` and `StrMap.del`.
* A `*Effect` is an `Option Effect` where the source can produce a nil pointer
  (the lookup `effectsToApply[name]`), a `*User` is an `Option User`.
-/

namespace Clockyuwu

/-! ## Outcomes and the random supply -/

/-- How a call ends: it returns a value, it panics, or the supplied draws are
used up while it is still looping. -/
inductive Run (α : Type) where
  | done : α → Run α
  | crash : Run α
  | starved : Run α
  deriving DecidableEq, Repr

/-- Go conversion `int(x)` of a float: truncation toward zero. -/
def goInt (x : ℚ) : Int :=
  if 0 ≤ x then ⌊x⌋ else ⌈x⌉

/-- The integer nearest to `y`; when `y` lies halfway between two integers, the
even one. -/
def roundHalfEven (y : ℚ) : Int :=
  if y - ⌊y⌋ < 1 / 2 then ⌊y⌋
  else if 1 / 2 < y - ⌊y⌋ then ⌊y⌋ + 1
  else if ⌊y⌋ % 2 = 0 then ⌊y⌋ else ⌊y⌋ + 1

/-- The `float64` nearest to the rational `x` (IEEE 754 binary64, round to
nearest, ties to even): the significand has 53 bits, so the unit in the last
place of `x` is `2 ^ q` with `q = max (floor (log2 |x|)) (-1022) - 52`, and `x`
is rounded to a multiple of it. -/
def roundFloat64 (x : ℚ) : ℚ :=
  if x = 0 then 0
  else (roundHalfEven (x / 2 ^ (max (Int.log 2 |x|) (-1022) - 52)) : ℚ)
    * 2 ^ (max (Int.log 2 |x|) (-1022) - 52)

/-- Go conversion `float64(n)` of an `int`. -/
def float64 (n : Int) : ℚ :=
  roundFloat64 n

/-- Go product `x * y` of two `float64`: the exact product, rounded. The operands
are rounded first, which changes nothing for a `float64` and reads a decimal
constant as the compiler does. -/
def mulFloat64 (x y : ℚ) : ℚ :=
  roundFloat64 (roundFloat64 x * roundFloat64 y)

/-- The Go expression `int(x * float64(n))`. -/
def scaleInt (x : ℚ) (n : Int) : Int :=
  goInt (mulFloat64 x (float64 n))

/-- The value a 64-bit `int` holds after an operation with the exact result `x`:
the number of `[-2^63, 2^63)` that differs from `x` by a multiple of `2^64`. -/
def wrapInt (x : Int) : Int :=
  (x + 2 ^ 63) % 2 ^ 64 - 2 ^ 63

/-- The value `r.Float64()` makes of a raw draw, a number of `[0, 1)`. -/
def Float64 (d : Nat) : ℚ :=
  ((d % 2 ^ 53 : Nat) : ℚ) / 2 ^ 53

/-- The value `r.Intn(n)` makes of a raw draw, for `n > 0`. -/
def Intn (n : Int) (d : Nat) : Int :=
  (d : Int) % n

/-- The first `n` draws of an infinite sequence of draws, from position `pos`. -/
def window (σ : Nat → Nat) (pos : Nat) : Nat → List Nat
  | 0 => []
  | n + 1 => σ pos :: window σ (pos + 1) n

/-- Every residue below `T` keeps turning up in the sequence of draws. -/
def Fair (T : Nat) (σ : Nat → Nat) : Prop :=
  ∀ j, j < T → ∀ pos, ∃ q, pos ≤ q ∧ σ q % T = j

/-! ## String-keyed maps -/

/-- A Go `map[string]α`, as an association list. -/
abbrev StrMap (α : Type) := List (String × α)

/-- Lookup `m[k]` with the comma-ok flag: the first entry
with key `k`. -/
def StrMap.get? {α : Type} : StrMap α → String → Option α
  | [], _ => none
  | (k', v) :: m, k => if k' = k then some v else StrMap.get? m k

/-- Assignment `m[k] = v`. -/
def StrMap.set {α : Type} : StrMap α → String → α → StrMap α
  | [], k, v => [(k, v)]
  | (k', v') :: m, k, v => if k' = k then (k, v) :: m else (k', v') :: StrMap.set m k v

/-- Deletion `delete(m, k)`. -/
def StrMap.del {α : Type} (m : StrMap α) (k : String) : StrMap α :=
  m.filter (fun kv => decide (kv.1 ≠ k))

/-- Lookup `m[k]` of a `map[string]int`: zero for a missing key. -/
def StrMap.getI (m : StrMap Int) (k : String) : Int :=
  (StrMap.get? m k).getD 0

/-- The sum of the values stored in a `map[string]int`. -/
def StrMap.total (m : StrMap Int) : Int :=
  (m.map Prod.snd).sum

/-! ## Data model -/

/-- Type `types.Interval`. -/
structure Interval where
  Min : ℚ
  Max : ℚ
  deriving DecidableEq

/-- Modelled from the spec: `structs.Effect` (structs/effect.go is not among the
sources); the effect catalog entry with the two fields the distributor reads,
its unique name and its class key (`"*"` multiplicative, `"+"`/`"-"` additive). -/
structure Effect where
  Name : String
  Key : String
  deriving DecidableEq, Repr

/-- Type `structs.EffectPresence`, with the fields `AssignRandomEffects` reads. -/
structure EffectPresence where
  Effect : Effect
  Possible : ℚ
  Amount : Interval
  deriving DecidableEq

/-- Modelled from the spec: the template type behind the global `Sets`
(events/sets.go is not among the sources): a name and the enabled flag that is
recomputed every cycle. `Sets` holds pointers: the `range` loop of
`EnabledRandomSets` disables the templates themselves, as the spec has it. -/
structure Set where
  Name : String
  Enabled : Bool
  deriving DecidableEq, Repr

/-- Modelled from the spec: `events.Event` (events/event.go is not among the
sources): name (the time-of-day key), point value, enabled flag and the list of
attached effects. -/
structure Event where
  Name : String
  Points : Int
  Enabled : Bool
  Effects : List (Option Effect)
  deriving DecidableEq, Repr

/-- Modelled from the spec: `(*Event).AddEffect` (events/event.go is not among the
sources) attaches one unit of the effect, as `(*User).AddEffect` does:
`e.Effects = append(e.Effects, effect)`. -/
def Event.AddEffect (e : Event) (effect : Option Effect) : Event :=
  { e with Effects := e.Effects ++ [effect] }

/-- Type `EventsStats`. -/
structure EventsStats where
  TotalSetsNum : Int
  EnabledSetsNum : Int
  EnabledSets : List String
  TotalEventsNum : Int
  EnabledEventsNum : Int
  EnabledPointsSum : Int
  EnabledEffectsNum : Int
  EnabledEffects : StrMap Int
  deriving DecidableEq, Repr

/-- Type `EventsData`. A nil entry of `Map` is the same as a missing one. -/
structure EventsData where
  Map : StrMap Event
  Keys : List String
  Stats : EventsStats
  deriving DecidableEq, Repr

/-- The value `NewEventsData` starts from: empty map, no keys, zeroed
statistics. -/
def emptyEventsData : EventsData :=
  { Map := [], Keys := [], Stats := ⟨0, 0, [], 0, 0, 0, 0, []⟩ }

/-! ## EnabledRandomSets -/

/-- The rejection-sampling loop of `EnabledRandomSets`
(`for i := 0; i < setToActivate; { ... }`), from counter value `i`. -/
def enableLoop (setToActivate : Int) :
    List Nat → Int → EventsData → List Set → Run (EventsData × List Set)
  | [], i, ed, Sets =>
    if i < setToActivate then
      if ed.Stats.TotalSetsNum ≤ 0 then .crash else .starved
    else .done (ed, Sets)
  | d :: ds, i, ed, Sets =>
    if i < setToActivate then
      if ed.Stats.TotalSetsNum ≤ 0 then .crash
      else
        let setIndex := (Intn ed.Stats.TotalSetsNum d).toNat
        match Sets[setIndex]? with
        | none => .crash
        | some set =>
          if !set.Enabled then
            enableLoop setToActivate ds (i + 1)
              { ed with Stats := { ed.Stats with
                  EnabledSetsNum := ed.Stats.EnabledSetsNum + 1
                  EnabledSets := ed.Stats.EnabledSets ++ [set.Name] } }
              (Sets.set setIndex { set with Enabled := true })
          else enableLoop setToActivate ds i ed Sets
    else .done (ed, Sets)

/-- Method `(*EventsData).EnabledRandomSets` on the global `Sets`. The result
carries the returned `error` (`none` is nil), the receiver and `Sets`. -/
def EnabledRandomSets (ed : EventsData) (Sets : List Set) (percentage : Interval)
    (draws : List Nat) : Run (Option String × EventsData × List Set) :=
  if percentage.Min < 0 then
    .done (some "minPercentage must be >= 0", ed, Sets)
  else if percentage.Max > 1 then
    .done (some "maxPercentage must be <= 1", ed, Sets)
  else if percentage.Min > percentage.Max then
    .done (some "minPercentage must be <= maxPercentage", ed, Sets)
  else
    let ed1 : EventsData := { ed with Stats := { ed.Stats with TotalSetsNum := Sets.length } }
    let Sets1 := Sets.map (fun set => { set with Enabled := false })
    let min := scaleInt percentage.Min ed1.Stats.TotalSetsNum
    let max := scaleInt percentage.Max ed1.Stats.TotalSetsNum
    if max - min ≤ 0 then .crash
    else
      match draws with
      | [] => .starved
      | d :: ds =>
        let setToActivate := Intn (max - min) d + min
        match enableLoop setToActivate ds 0 ed1 Sets1 with
        | .done (ed2, Sets2) => .done (none, ed2, Sets2)
        | .crash => .crash
        | .starved => .starved

/-- The number of templates whose `Enabled` flag is set. -/
def enabledCount (Sets : List Set) : Nat :=
  (Sets.filter (fun set => set.Enabled)).length

/-- The names of the templates whose `Enabled` flag is set. -/
def enabledNames (Sets : List Set) : List String :=
  (Sets.filter (fun set => set.Enabled)).map (fun set => set.Name)

/-! ## AssignRandomEffects -/

/-- Function `RemoveValue`. `make([]string, len(s)-1)` panics for an empty `s`
(`none`); otherwise `newS` starts as `len(s)-1` zero values and the `range` loop
appends to it every `v` that differs from `value`. -/
def RemoveValue (s : List String) (value : String) : Option (List String) :=
  if s.length = 0 then none
  else
    some (s.foldl (fun newS v => if v ≠ value then newS ++ [v] else newS)
      (List.replicate (s.length - 1) ""))

/-- The local variables of `AssignRandomEffects` that the sizing pass fills and
the later passes read. -/
structure Plan where
  multiplierEffectsNames : List String
  additiveEffectsNames : List String
  effectsAmountToApply : StrMap Int
  effectsToApply : StrMap Effect
  multiplierToApplyNum : Int
  additiveToApplyNum : Int
  deriving DecidableEq, Repr

/-- The initial values of the local variables. -/
def emptyPlan : Plan :=
  ⟨[], [], [], [], 0, 0⟩

/-- The body of the sizing loop for an effect that is activated with target count
`eventsEffected`. -/
def Plan.record (p : Plan) (effect : Effect) (eventsEffected : Int) : Plan :=
  let p1 : Plan := { p with
    effectsAmountToApply :=
      p.effectsAmountToApply.set effect.Name
        (p.effectsAmountToApply.getI effect.Name + eventsEffected)
    effectsToApply := p.effectsToApply.set effect.Name effect }
  if effect.Key = "*" then
    { p1 with
      multiplierEffectsNames := p1.multiplierEffectsNames ++ [effect.Name]
      multiplierToApplyNum := p1.multiplierToApplyNum + eventsEffected }
  else if effect.Key = "+" ∨ effect.Key = "-" then
    { p1 with
      additiveEffectsNames := p1.additiveEffectsNames ++ [effect.Name]
      additiveToApplyNum := p1.additiveToApplyNum + eventsEffected }
  else p1

/-- Pass 1 of `AssignRandomEffects` (`for _, effect := range effects`), with
`E = ed.Stats.EnabledEventsNum`. -/
def sizeEffects (E : Int) : List EffectPresence → List Nat → Plan → Run (Plan × List Nat)
  | [], ds, p => .done (p, ds)
  | effect :: effects, ds, p =>
    match ds with
    | [] => .starved
    | d :: ds1 =>
      if Float64 d < effect.Possible then
        let minEventsEffected := scaleInt effect.Amount.Min E
        let maxEventsEffected := scaleInt effect.Amount.Max E
        if maxEventsEffected - minEventsEffected ≤ 0 then .crash
        else
          match ds1 with
          | [] => .starved
          | d2 :: ds2 =>
            let eventsEffected := Intn (maxEventsEffected - minEventsEffected) d2 + minEventsEffected
            sizeEffects E effects ds2 (p.record effect.Effect eventsEffected)
      else sizeEffects E effects ds1 p

/-- Pass 2 of `AssignRandomEffects` for one group
(`for toApplyNum > ed.Stats.EnabledEventsNum { ... }`): the loop condition reads
`toApplyNum`, which the body never writes. -/
def rebalance (E toApplyNum : Int) :
    List Nat → List String → StrMap Int → Run (List String × StrMap Int × List Nat)
  | [], names, amounts =>
    if toApplyNum > E then
      if names.length = 0 then .crash else .starved
    else .done (names, amounts, [])
  | d :: ds, names, amounts =>
    if toApplyNum > E then
      if names.length = 0 then .crash
      else
        match names[(Intn names.length d).toNat]? with
        | none => .crash
        | some effectToDecrease =>
          let amounts1 := amounts.set effectToDecrease (amounts.getI effectToDecrease - 1)
          if amounts1.getI effectToDecrease = 0 then
            match RemoveValue names effectToDecrease with
            | none => .crash
            | some names1 => rebalance E toApplyNum ds names1 (amounts1.del effectToDecrease)
          else rebalance E toApplyNum ds names amounts1
    else .done (names, amounts, d :: ds)

/-- Passes 1 and 2 of `AssignRandomEffects`: the local variables with which the
placement phase is entered, and the draws that are left. -/
def planEffects (ed : EventsData) (effects : List EffectPresence) (draws : List Nat) :
    Run (Plan × List Nat) :=
  match sizeEffects ed.Stats.EnabledEventsNum effects draws emptyPlan with
  | .crash => .crash
  | .starved => .starved
  | .done (p, ds1) =>
    match rebalance ed.Stats.EnabledEventsNum p.multiplierToApplyNum ds1
        p.multiplierEffectsNames p.effectsAmountToApply with
    | .crash => .crash
    | .starved => .starved
    | .done (mult, amounts1, ds2) =>
      match rebalance ed.Stats.EnabledEventsNum p.additiveToApplyNum ds2
          p.additiveEffectsNames amounts1 with
      | .crash => .crash
      | .starved => .starved
      | .done (add, amounts2, ds3) =>
        .done ({ p with
          multiplierEffectsNames := mult
          additiveEffectsNames := add
          effectsAmountToApply := amounts2 }, ds3)

/-- One attachment: the three statements under the capacity test of a placement
loop. -/
def attach (ed : EventsData) (eventName : String) (event : Event) (effectName : String)
    (effect : Option Effect) : EventsData :=
  { ed with
    Map := ed.Map.set eventName (event.AddEffect effect)
    Stats := { ed.Stats with
      EnabledEffectsNum := ed.Stats.EnabledEffectsNum + 1
      EnabledEffects :=
        ed.Stats.EnabledEffects.set effectName (ed.Stats.EnabledEffects.getI effectName + 1) } }

/-- The inner placement loop for one effect name
(`for i := 0; i < effectsAmountToApply[effectName]; { ... }`), from counter value
`i`; `fits` is the capacity test on `len(Effects)`. -/
def placeLoop (fits : Nat → Bool) (effectName : String) (effect : Option Effect)
    (target : Int) : List Nat → Int → EventsData → Run (EventsData × List Nat)
  | [], i, ed =>
    if i < target then
      if ed.Keys.length = 0 then .crash else .starved
    else .done (ed, [])
  | d :: ds, i, ed =>
    if i < target then
      if ed.Keys.length = 0 then .crash
      else
        match ed.Keys[(Intn ed.Keys.length d).toNat]? with
        | none => .crash
        | some eventName =>
          match ed.Map.get? eventName with
          | none => .crash
          | some event =>
            if event.Enabled && fits event.Effects.length then
              placeLoop fits effectName effect target ds (i + 1)
                (attach ed eventName event effectName effect)
            else placeLoop fits effectName effect target ds i ed
    else .done (ed, d :: ds)

/-- The outer placement loop over a list of effect names. -/
def placeAll (fits : Nat → Bool) (p : Plan) :
    List String → List Nat → EventsData → Run (EventsData × List Nat)
  | [], ds, ed => .done (ed, ds)
  | effectName :: names, ds, ed =>
    match placeLoop fits effectName (p.effectsToApply.get? effectName)
        (p.effectsAmountToApply.getI effectName) ds 0 ed with
    | .crash => .crash
    | .starved => .starved
    | .done (ed1, ds1) => placeAll fits p names ds1 ed1

/-- Capacity test of the multiplicative loop: `len(Effects) == 0`. -/
def fitsMultiplier (n : Nat) : Bool := n == 0

/-- Capacity test of the additive loop: `len(Effects) < 2`. -/
def fitsAdditive (n : Nat) : Bool := decide (n < 2)

/-- Pass 3 of `AssignRandomEffects`: multiplicative effects first, additive
effects after. -/
def placeEffects (p : Plan) (ds : List Nat) (ed : EventsData) : Run EventsData :=
  match placeAll fitsMultiplier p p.multiplierEffectsNames ds ed with
  | .crash => .crash
  | .starved => .starved
  | .done (ed1, ds1) =>
    match placeAll fitsAdditive p p.additiveEffectsNames ds1 ed1 with
    | .crash => .crash
    | .starved => .starved
    | .done (ed2, _) => .done ed2

/-- Method `(*EventsData).AssignRandomEffects`. -/
def AssignRandomEffects (ed : EventsData) (effects : List EffectPresence)
    (draws : List Nat) : Run EventsData :=
  match planEffects ed effects draws with
  | .crash => .crash
  | .starved => .starved
  | .done (p, ds) => placeEffects p ds ed

/-- An effect of the multiplicative class. -/
def Effect.isMultiplier (e : Effect) : Prop := e.Key = "*"

/-- An effect of the additive class. -/
def Effect.isAdditive (e : Effect) : Prop := e.Key = "+" ∨ e.Key = "-"

instance (e : Effect) : Decidable e.isMultiplier := by
  unfold Effect.isMultiplier; infer_instance

instance (e : Effect) : Decidable e.isAdditive := by
  unfold Effect.isAdditive; infer_instance


/-! ## NewEventsData: the calendar builder -/

/-- A `time.Time` as far as `time.Date(year, month, day, hour, minute, 0, 0, loc)`
fixes it. -/
structure Time where
  Year : Int
  Month : Int
  Day : Int
  Hour : Int
  Minute : Int
  deriving DecidableEq, Repr

/-- The `time.Time` built in iteration `i` of the calendar loop; `now i` is what
`time.Now()` returns in that iteration. -/
def minuteOfDay (now : Nat → Time) (i : Nat) : Time :=
  { Year := (now i).Year, Month := (now i).Month, Day := (now i).Day,
    Hour := (i / 60 : Nat), Minute := (i % 60 : Nat) }

/-- The body of the calendar loop of `NewEventsData` for minute `i`.
`CalculateValid` and `NewEvent` (events/event.go, not among the sources) read the
global `Sets` and are parameters. The two counters grow by one at most 1440
times from the zero of the constructor; `EnabledPointsSum += event.Points` adds
arbitrary values and wraps around. -/
def buildStep (now : Nat → Time) (CalculateValid : Time → Bool) (NewEvent : Time → Event)
    (ed : EventsData) (i : Nat) : EventsData :=
  let time := minuteOfDay now i
  if CalculateValid time then
    let event := NewEvent time
    let ed1 : EventsData := { ed with
      Map := ed.Map.set event.Name event
      Keys := ed.Keys ++ [event.Name]
      Stats := { ed.Stats with TotalEventsNum := ed.Stats.TotalEventsNum + 1 } }
    if event.Enabled then
      { ed1 with Stats := { ed1.Stats with
          EnabledEventsNum := ed1.Stats.EnabledEventsNum + 1
          EnabledPointsSum := wrapInt (ed1.Stats.EnabledPointsSum + event.Points) } }
    else ed1
  else ed

/-- The calendar loop of `NewEventsData`: `for i := 0; i < 24*60; i++`. -/
def buildCalendar (now : Nat → Time) (CalculateValid : Time → Bool) (NewEvent : Time → Event)
    (ed : EventsData) : EventsData :=
  (List.range (24 * 60)).foldl (buildStep now CalculateValid NewEvent) ed

/-- The events the calendar loop builds, in the order it builds them. -/
def builtEvents (now : Nat → Time) (CalculateValid : Time → Bool) (NewEvent : Time → Event) :
    List Event :=
  ((List.range (24 * 60)).filter (fun i => CalculateValid (minuteOfDay now i))).map
    (fun i => NewEvent (minuteOfDay now i))

/-- The production list of presences that `NewEventsData` and `Reset` pass to
`AssignRandomEffects`; the keys of the catalog (structs/effect.go, not among the
sources) are a parameter. A probability is compared with a draw as the `float64`
the constant denotes; the amounts are rounded by the products they enter. -/
def defaultPresences (catalog : String → Effect) : List EffectPresence :=
  [ ⟨catalog "TripleNegativePoints", roundFloat64 (10 / 100), ⟨1 / 100, 2 / 100⟩⟩,
    ⟨catalog "DoubleNegativePoints", roundFloat64 (20 / 100), ⟨2 / 100, 5 / 100⟩⟩,
    ⟨catalog "SingleNegativePoints", roundFloat64 (90 / 100), ⟨5 / 100, 15 / 100⟩⟩,
    ⟨catalog "DoublePositivePoints", roundFloat64 (90 / 100), ⟨15 / 100, 25 / 100⟩⟩,
    ⟨catalog "TriplePositivePoints", roundFloat64 (20 / 100), ⟨2 / 100, 5 / 100⟩⟩,
    ⟨catalog "QuintuplePositivePoints", roundFloat64 (10 / 100), ⟨1 / 100, 2 / 100⟩⟩,
    ⟨catalog "SubTwoPoints", roundFloat64 (50 / 100), ⟨10 / 100, 20 / 100⟩⟩,
    ⟨catalog "SubOnePoint", roundFloat64 (90 / 100), ⟨15 / 100, 25 / 100⟩⟩,
    ⟨catalog "AddOnePoint", 1, ⟨15 / 100, 30 / 100⟩⟩,
    ⟨catalog "AddTwoPoints", roundFloat64 (90 / 100), ⟨15 / 100, 25 / 100⟩⟩,
    ⟨catalog "AddThreePoints", roundFloat64 (50 / 100), ⟨10 / 100, 20 / 100⟩⟩ ]

/-- Function `NewEventsData` as far as the end of the calendar loop: the
constructor value, `ed.EnabledRandomSets(types.Interval{Min: 0.6, Max: 1.0})`
(its error is dropped) and the loop. `CalculateValid` and `NewEvent` read the
templates the activator has left. -/
def newCalendar (Sets : List Set) (now : Nat → Time)
    (CalculateValid : List Set → Time → Bool) (NewEvent : List Set → Time → Event)
    (setDraws : List Nat) : Run (EventsData × List Set) :=
  match EnabledRandomSets emptyEventsData Sets ⟨6 / 10, 1⟩ setDraws with
  | .crash => .crash
  | .starved => .starved
  | .done (_, ed, Sets1) =>
    .done (buildCalendar now (CalculateValid Sets1) (NewEvent Sets1) ed, Sets1)

/-- Function `NewEventsData`. -/
def NewEventsData (newEffects : Bool) (Sets : List Set) (now : Nat → Time)
    (CalculateValid : List Set → Time → Bool) (NewEvent : List Set → Time → Event)
    (catalog : String → Effect) (setDraws effectDraws : List Nat) :
    Run (EventsData × List Set) :=
  match newCalendar Sets now CalculateValid NewEvent setDraws with
  | .crash => .crash
  | .starved => .starved
  | .done (ed, Sets1) =>
    if newEffects then
      match AssignRandomEffects ed (defaultPresences catalog) effectDraws with
      | .crash => .crash
      | .starved => .starved
      | .done ed1 => .done (ed1, Sets1)
    else .done (ed, Sets1)

/-! ## The /ranking command -/

/-- Type `structs.User`. -/
structure User where
  TelegramID : Int
  UserName : String
  TotalPoints : Int
  TotalEventPartecipations : Int
  TotalEventWins : Int
  TotalChampionshipPartecipations : Int
  TotalChampionshipWins : Int
  Effects : List (Option Effect)
  deriving DecidableEq, Repr

/-- Type `Rank`. -/
structure Rank where
  Username : String
  Points : Int
  Partecipations : Int
  deriving DecidableEq, Repr

/-- The global `Users`, a `map[int64]*structs.User`, in the order a `range` loop
visits it. -/
abbrev UserStore := List (Int × Option User)

/-- The first loop of the `ranking` case: one `Rank` per non-nil user. -/
def collectRanking : UserStore → List Rank
  | [] => []
  | (_, none) :: us => collectRanking us
  | (_, some u) :: us =>
    ⟨u.UserName, u.TotalPoints, u.TotalEventPartecipations⟩ :: collectRanking us

/-- The `less` closure handed to `sort.Slice` in the `ranking` case. -/
def rankLess (a b : Rank) : Bool :=
  if a.Points = b.Points then decide (a.Partecipations < b.Partecipations)
  else decide (a.Points > b.Points)

/-- The inner loop of the insertion sort of package `sort`
(`for j := i; j > a && less(data[j], data[j-1]); j--` with a swap): `x` moves
left past every element it is less than. The sorted part is held last element
first. -/
def bubble {α : Type} (less : α → α → Bool) (x : α) : List α → List α
  | [] => [x]
  | y :: sorted => if less x y then y :: bubble less x sorted else x :: y :: sorted

/-- Library function `sort.Slice`, as the insertion sort that package `sort` runs on
slices of up to 12 elements. -/
def sortSlice {α : Type} (less : α → α → Bool) (data : List α) : List α :=
  (data.foldl (fun sorted x => bubble less x sorted) []).reverse

/-- The slice `ranking` that the `ranking` case formats into its reply. -/
def ranking (Users : UserStore) : List Rank :=
  sortSlice rankLess (collectRanking Users)

/-- The (username, points, participations) triples of the non-nil users of a
store, one per entry of the store that holds a user. -/
def nonNilTriples (Users : UserStore) : List (String × Int × Int) :=
  Users.filterMap (fun entry =>
    entry.2.map (fun u => (u.UserName, u.TotalPoints, u.TotalEventPartecipations)))

/-- The (username, points, participations) triple of an entry of the ranking. -/
def Rank.triple (r : Rank) : String × Int × Int :=
  (r.Username, r.Points, r.Partecipations)

/-- The ordering the ranking is documented to have between an entry and the
next: strictly more points, or equal points and no more participations. -/
def rankedBefore (a b : Rank) : Prop :=
  a.Points > b.Points ∨ (a.Points = b.Points ∧ a.Partecipations ≤ b.Partecipations)

/-! ## The /update command -/

/-- Lookup `Users[key]` with the comma-ok flag. -/
def UserStore.get? : UserStore → Int → Option (Option User)
  | [], _ => none
  | (k, u) :: us, key => if k = key then some u else UserStore.get? us key

/-- Assignment `Users[key] = user`. -/
def UserStore.set : UserStore → Int → Option User → UserStore
  | [], key, user => [(key, user)]
  | (k, u) :: us, key, user =>
    if k = key then (key, user) :: us else (k, u) :: UserStore.set us key user

/-- The search loop of the `user` case of `/update`: `userKey` starts as 0 and
takes the key of every non-nil user named `username` that the `range` loop
visits. -/
def findUserKey (Users : UserStore) (username : String) : Int :=
  Users.foldl
    (fun userKey entry =>
      match entry.2 with
      | some user => if user.UserName = username then entry.1 else userKey
      | none => userKey)
    0

/-- The `user` case of the `/update` command for an admin and three arguments:
`username` is `cmdArgs[1]`, `points` what `strconv.Atoi(cmdArgs[2])` returns
(`none` for an error). The result is the new `Users` and the text of the reply. -/
def updateUserCommand (Users : UserStore) (username : String) (points : Option Int) :
    Run (UserStore × String) :=
  let userKey := findUserKey Users username
  match Users.get? userKey with
  | none => .done (Users, "Utente non trovato")
  | some user =>
    match points with
    | none => .done (Users, "parametro points deve essere un numero.")
    | some points =>
      match user with
      | none => .crash
      | some user =>
        .done (Users.set userKey (some
          { TelegramID := 0
            UserName := user.UserName
            TotalPoints := points
            TotalEventPartecipations := user.TotalEventPartecipations
            TotalEventWins := user.TotalEventWins
            TotalChampionshipPartecipations := user.TotalChampionshipPartecipations
            TotalChampionshipWins := user.TotalChampionshipWins
            Effects := [] }), "Utente aggiornato")

/-! ## The steps of the placement phase -/

/-- The body of a placement loop on one draw `d`, entered with counter value `i`:
the new counter value and the new calendar. -/
def placeIter (fits : Nat → Bool) (effectName : String) (effect : Option Effect)
    (d : Nat) (i : Int) (ed : EventsData) : Run (Int × EventsData) :=
  if ed.Keys.length = 0 then .crash
  else
    match ed.Keys[(Intn ed.Keys.length d).toNat]? with
    | none => .crash
    | some eventName =>
      match ed.Map.get? eventName with
      | none => .crash
      | some event =>
        if event.Enabled && fits event.Effects.length then
          .done (i + 1, attach ed eventName event effectName effect)
        else .done (i, ed)

/-- The steps of a run of the inner placement loop: the counter value and the
calendar each time the loop condition is evaluated. -/
def placeLoopHeads (fits : Nat → Bool) (effectName : String) (effect : Option Effect)
    (target : Int) : List Nat → Int → EventsData → List (Int × EventsData)
  | [], i, ed => [(i, ed)]
  | d :: ds, i, ed =>
    (i, ed) ::
      (if i < target then
        match placeIter fits effectName effect d i ed with
        | .done (i1, ed1) => placeLoopHeads fits effectName effect target ds i1 ed1
        | .crash => []
        | .starved => []
      else [])

/-- The steps of a run of the outer placement loop: effect name, counter value
and calendar each time an inner loop condition is evaluated. -/
def placeAllHeads (fits : Nat → Bool) (p : Plan) :
    List String → List Nat → EventsData → List (String × Int × EventsData)
  | [], _, _ => []
  | effectName :: names, ds, ed =>
    (placeLoopHeads fits effectName (p.effectsToApply.get? effectName)
        (p.effectsAmountToApply.getI effectName) ds 0 ed).map
      (fun h => (effectName, h.1, h.2)) ++
    (match placeLoop fits effectName (p.effectsToApply.get? effectName)
        (p.effectsAmountToApply.getI effectName) ds 0 ed with
      | .done (ed1, ds1) => placeAllHeads fits p names ds1 ed1
      | .crash => []
      | .starved => [])

/-! ## Predicates of the statements -/

/-- The sum of the targets in `effectsAmountToApply` over a list of effect names,
one summand per entry of the list. -/
def targetSum (amounts : StrMap Int) (names : List String) : Int :=
  (names.map (fun n => amounts.getI n)).sum

/-- What the sizing pass keeps true when no effect name is met twice; `seen` are
the names met so far. -/
structure SizingInv (seen : List String) (p : Plan) : Prop where
  mult_seen : ∀ n ∈ p.multiplierEffectsNames, n ∈ seen
  add_seen : ∀ n ∈ p.additiveEffectsNames, n ∈ seen
  fresh : ∀ n, n ∉ seen → p.effectsAmountToApply.get? n = none
  mult_sum : targetSum p.effectsAmountToApply p.multiplierEffectsNames = p.multiplierToApplyNum
  add_sum : targetSum p.effectsAmountToApply p.additiveEffectsNames = p.additiveToApplyNum

/-- Presences that name the same effect give it the same class key: the name is
the key of the effect catalog. -/
def KeysConsistent (effects : List EffectPresence) : Prop :=
  ∀ q1 ∈ effects, ∀ q2 ∈ effects, q1.Effect.Name = q2.Effect.Name → q1.Effect.Key = q2.Effect.Key

instance (effects : List EffectPresence) : Decidable (KeysConsistent effects) := by
  unfold KeysConsistent; infer_instance

/-- What the sizing pass keeps true of the effect it will attach for each name. -/
structure KeyInv (all : List EffectPresence) (p : Plan) : Prop where
  mult : ∀ n ∈ p.multiplierEffectsNames, ∃ e, p.effectsToApply.get? n = some e ∧ e.isMultiplier
  add : ∀ n ∈ p.additiveEffectsNames, ∃ e, p.effectsToApply.get? n = some e ∧ e.isAdditive
  src : ∀ n e, p.effectsToApply.get? n = some e → e.Name = n ∧ ∃ q ∈ all, q.Effect = e

/-- The sum of the targets in `effectsAmountToApply` over the effects a list of
names stands for, one summand per distinct name. -/
def effectTargetSum (amounts : StrMap Int) (names : List String) : Int :=
  targetSum amounts names.dedup

/-- What the sizing pass keeps true of targets and name lists when a name always
comes with the same class key. -/
structure EffectSumInv (p : Plan) : Prop where
  recorded : ∀ n, p.effectsToApply.get? n = none → p.effectsAmountToApply.get? n = none
  classed : ∀ n e, p.effectsToApply.get? n = some e →
    (e.isMultiplier → n ∈ p.multiplierEffectsNames) ∧ (e.isAdditive → n ∈ p.additiveEffectsNames)
  mult_sum : effectTargetSum p.effectsAmountToApply p.multiplierEffectsNames
    = p.multiplierToApplyNum
  add_sum : effectTargetSum p.effectsAmountToApply p.additiveEffectsNames = p.additiveToApplyNum

/-- The effect lists the data model documents for an event: no effect, one
multiplicative effect, or one or two additive effects. -/
def documentedShape (l : List (Option Effect)) : Prop :=
  l = [] ∨ (∃ m, l = [some m] ∧ m.isMultiplier) ∨ (∃ a, l = [some a] ∧ a.isAdditive) ∨
  (∃ a b, l = [some a, some b] ∧ a.isAdditive ∧ b.isAdditive)

/-- The effect lists the distributor produces on a calendar without effects: the
documented ones, and a multiplicative effect followed by an additive one. -/
def effectsShape (l : List (Option Effect)) : Prop :=
  documentedShape l ∨ ∃ m a, l = [some m, some a] ∧ m.isMultiplier ∧ a.isAdditive

/-- The effect lists on which the multiplicative placement leaves every event. -/
def multiplierShape (l : List (Option Effect)) : Prop :=
  l = [] ∨ ∃ m, l = [some m] ∧ m.isMultiplier

/-- The statistics invariant of the distributor: the effect counter equals the
sum of the per-name counters. -/
def statsBalanced (ed : EventsData) : Prop :=
  ed.Stats.EnabledEffectsNum = ed.Stats.EnabledEffects.total

/-- The events the calendar loop builds on a list of minutes. -/
def builtOn (now : Nat → Time) (CalculateValid : Time → Bool) (NewEvent : Time → Event)
    (minutes : List Nat) : List Event :=
  (minutes.filter (fun i => CalculateValid (minuteOfDay now i))).map
    (fun i => NewEvent (minuteOfDay now i))

/-- The sum of the points of the enabled events of a list. -/
def enabledPoints (events : List Event) : Int :=
  ((events.filter (fun e => e.Enabled)).map (fun e => e.Points)).sum

/-- The number of enabled events of a list. -/
def enabledEvents (events : List Event) : Nat :=
  (events.filter (fun e => e.Enabled)).length

/-- Every event of the calendar holds at most two effects. -/
def atMostTwoEffects (ed : EventsData) : Prop :=
  ∀ name event, ed.Map.get? name = some event → event.Effects.length ≤ 2

/-- What `AssignRandomEffects` leaves as it was in the calendar `ed0`: the key
list, the keys of the map, every `Enabled` flag and the effect list of every
disabled event. -/
def frameOf (ed0 ed : EventsData) : Prop :=
  ed.Keys = ed0.Keys ∧ ed.Map.map Prod.fst = ed0.Map.map Prod.fst ∧
  ∀ name event0, ed0.Map.get? name = some event0 →
    ∃ event, ed.Map.get? name = some event ∧ event.Enabled = event0.Enabled ∧
      (event0.Enabled = false → event.Effects = event0.Effects)

/-- The candidate pool of a placement loop: the keys of `Keys`, each once, whose
event is enabled and passes the capacity test. -/
def candidatePool (fits : Nat → Bool) (ed : EventsData) : List String :=
  ed.Keys.dedup.filter (fun k =>
    match ed.Map.get? k with
    | some event => event.Enabled && fits event.Effects.length
    | none => false)

/-- The enabled events reachable through `Keys`: the keys, each once, whose
event is enabled. -/
def enabledKeys (ed : EventsData) : List String :=
  ed.Keys.dedup.filter (fun k =>
    match ed.Map.get? k with
    | some event => event.Enabled
    | none => false)

/-- The units a calendar can still take when event `e` can take `w e`. -/
def capacity (w : Event → Nat) (ed : EventsData) : Nat :=
  (ed.Keys.dedup.map (fun k =>
    match ed.Map.get? k with
    | some event => w event
    | none => 0)).sum

/-- The multiplicative units an event can still take. -/
def multiplierRoom (e : Event) : Nat :=
  if e.Enabled && fitsMultiplier e.Effects.length then 1 else 0

/-- The additive units an event can still take. -/
def additiveRoom (e : Event) : Nat :=
  if e.Enabled then 2 - e.Effects.length else 0

/-- The units of effect `name` that a finished call has counted in
`Stats.EnabledEffects`. -/
def unitsCounted (r : Run EventsData) (name : String) : Option Int :=
  match r with
  | .done ed => some (ed.Stats.EnabledEffects.getI name)
  | _ => none

/-! ## Concrete inputs -/

/-- Ten templates, two of them left enabled by an earlier cycle. -/
def tenSets : List Set :=
  [⟨"s0", false⟩, ⟨"s1", true⟩, ⟨"s2", false⟩, ⟨"s3", false⟩, ⟨"s4", false⟩,
   ⟨"s5", true⟩, ⟨"s6", false⟩, ⟨"s7", false⟩, ⟨"s8", false⟩, ⟨"s9", false⟩]

/-- Fifty templates, none enabled. -/
def fiftySets : List Set :=
  (List.range 50).map (fun i => ⟨"s" ++ toString i, false⟩)

/-- The receiver after the cycle of the range [0.58, 0.7] on `fiftySets` that
draws the target 28 and then the indices 0 to 27. -/
def fiftyEventsData : EventsData :=
  { emptyEventsData with Stats := { emptyEventsData.Stats with
      TotalSetsNum := 50
      EnabledSetsNum := 28
      EnabledSets := (List.range 28).map (fun i => "s" ++ toString i) } }

/-- The templates after that cycle: the first 28 are enabled. -/
def fiftyResult : List Set :=
  (List.range 50).map (fun i => ⟨"s" ++ toString i, decide (i < 28)⟩)

/-- The receiver after the cycle of the range [0.3, 0.6] on `tenSets` that draws
the target 5 and then the indices 0 to 4. -/
def fiveEventsData : EventsData :=
  { emptyEventsData with Stats := { emptyEventsData.Stats with
      TotalSetsNum := 10
      EnabledSetsNum := 5
      EnabledSets := ["s0", "s1", "s2", "s3", "s4"] } }

/-- The templates after that cycle: the first five are enabled. -/
def fiveResult : List Set :=
  (List.range 10).map (fun i => ⟨"s" ++ toString i, decide (i < 5)⟩)

/-- The receiver a first activation cycle leaves: six templates counted and
listed as enabled. -/
def cycledEventsData : EventsData :=
  { Map := [], Keys := [],
    Stats := ⟨10, 6, ["s0", "s1", "s2", "s3", "s4", "s5"], 0, 0, 0, 0, []⟩ }

/-- The templates a first activation cycle leaves. -/
def cycledSets : List Set :=
  [⟨"s0", true⟩, ⟨"s1", true⟩, ⟨"s2", true⟩, ⟨"s3", true⟩, ⟨"s4", true⟩,
   ⟨"s5", true⟩, ⟨"s6", false⟩, ⟨"s7", false⟩, ⟨"s8", false⟩, ⟨"s9", false⟩]

/-- The receiver after a second activation cycle. -/
def recycledEventsData : EventsData :=
  { Map := [], Keys := [],
    Stats := ⟨10, 13,
      ["s0", "s1", "s2", "s3", "s4", "s5", "s9", "s8", "s7", "s6", "s5", "s4", "s3"],
      0, 0, 0, 0, []⟩ }

/-- The templates after a second activation cycle. -/
def recycledSets : List Set :=
  [⟨"s0", false⟩, ⟨"s1", false⟩, ⟨"s2", false⟩, ⟨"s3", true⟩, ⟨"s4", true⟩,
   ⟨"s5", true⟩, ⟨"s6", true⟩, ⟨"s7", true⟩, ⟨"s8", true⟩, ⟨"s9", true⟩]

/-- A calendar of `n` enabled events without effects, named by their index,
with the statistics the calendar builder computes for it. -/
def enabledCalendar (n : Nat) : EventsData :=
  { Map := (List.range n).map (fun i => (toString i, ⟨toString i, 1, true, []⟩))
    Keys := (List.range n).map (fun i => toString i)
    Stats := ⟨0, 0, [], n, n, n, 0, []⟩ }

/-- A multiplicative and an additive presence, both certain, each sized to
between half and all of the enabled events. -/
def mixedPresences : List EffectPresence :=
  [⟨⟨"DoublePositivePoints", "*"⟩, 1, ⟨1 / 2, 1⟩⟩, ⟨⟨"AddOnePoint", "+"⟩, 1, ⟨1 / 2, 1⟩⟩]

/-- The calendar of two events after `mixedPresences` have been distributed with
all draws zero. -/
def mixedResult : EventsData :=
  { Map := [("0", ⟨"0", 1, true,
              [some ⟨"DoublePositivePoints", "*"⟩, some ⟨"AddOnePoint", "+"⟩]⟩),
            ("1", ⟨"1", 1, true, []⟩)],
    Keys := ["0", "1"],
    Stats := ⟨0, 0, [], 2, 2, 2, 2, [("DoublePositivePoints", 1), ("AddOnePoint", 1)]⟩ }

/-- Two certain presences that give the same effect name two class keys. -/
def clashingPresences : List EffectPresence :=
  [⟨⟨"x", "+"⟩, 1, ⟨1 / 2, 1⟩⟩, ⟨⟨"x", "*"⟩, 1, ⟨1 / 2, 1⟩⟩]

/-- The calendar of two events after `clashingPresences` have been distributed. -/
def clashingResult : EventsData :=
  { Map := [("0", ⟨"0", 1, true, [some ⟨"x", "*"⟩, some ⟨"x", "*"⟩]⟩),
            ("1", ⟨"1", 1, true, [some ⟨"x", "*"⟩, some ⟨"x", "*"⟩]⟩)],
    Keys := ["0", "1"],
    Stats := ⟨0, 0, [], 2, 2, 2, 4, [("x", 4)]⟩ }

/-- The scenario presence: multiplicative, certain, amount `[0.5, 0.5]`. -/
def halfPresence : EffectPresence :=
  ⟨⟨"DoublePositivePoints", "*"⟩, 1, ⟨1 / 2, 1 / 2⟩⟩

/-- The same multiplicative presence listed twice. -/
def doubledPresences : List EffectPresence :=
  [⟨⟨"x", "*"⟩, 1, ⟨0, 1⟩⟩, ⟨⟨"x", "*"⟩, 1, ⟨0, 1⟩⟩]

/-- The local variables after `doubledPresences` are sized to 5 and 5 on ten
enabled events. -/
def doubledPlan : Plan :=
  ⟨["x", "x"], [], [("x", 10)], [("x", ⟨"x", "*"⟩)], 10, 0⟩

/-- The three users of the ranking scenario. -/
def threeUsers : UserStore :=
  [(1, some ⟨1, "a", 10, 2, 0, 0, 0, []⟩), (2, some ⟨2, "b", 10, 1, 0, 0, 0, []⟩),
   (3, some ⟨3, "c", 5, 5, 0, 0, 0, []⟩)]

/-- A clock that stays on one day. -/
def fixedNow : Nat → Time := fun _ => ⟨2024, 1, 1, 0, 0⟩

/-- A validity rule with three valid minutes: 00:00, 05:00 and 07:00. -/
def sampleValid : List Set → Time → Bool :=
  fun _ t => decide (t.Minute = 0 ∧ (t.Hour = 0 ∨ t.Hour = 5 ∨ t.Hour = 7))

/-- An event constructor: the event of hour `h` is named after `h`, is worth
`h + 1` points and is enabled when template `h` is. -/
def sampleEvent : List Set → Time → Event :=
  fun Sets t =>
    ⟨toString t.Hour, t.Hour + 1,
      (Sets[t.Hour.toNat]?.map (fun set => set.Enabled)).getD false, []⟩

/-- The calendar built from `tenSets` with `sampleValid` and `sampleEvent` after
the templates `s0` to `s5` are activated. -/
def sampleCalendar : EventsData :=
  { Map := [("0", ⟨"0", 1, true, []⟩), ("5", ⟨"5", 6, true, []⟩), ("7", ⟨"7", 8, false, []⟩)],
    Keys := ["0", "5", "7"],
    Stats := ⟨10, 6, ["s0", "s1", "s2", "s3", "s4", "s5"], 3, 2, 7, 0, []⟩ }

/-- An event constructor whose events are all enabled and worth `2^62` points. -/
def heavyEvent : List Set → Time → Event :=
  fun _ t => ⟨toString t.Hour, 2 ^ 62, true, []⟩

/-- The calendar built from `tenSets` with `sampleValid` and `heavyEvent`. -/
def heavyCalendar : EventsData :=
  { Map := [("0", ⟨"0", 2 ^ 62, true, []⟩), ("5", ⟨"5", 2 ^ 62, true, []⟩),
      ("7", ⟨"7", 2 ^ 62, true, []⟩)],
    Keys := ["0", "5", "7"],
    Stats := ⟨10, 6, ["s0", "s1", "s2", "s3", "s4", "s5"], 3, 3, -2 ^ 62, 0, []⟩ }

/-- Two multiplicative presences with distinct names, each sized to between
none and all of the enabled events. -/
def overfullPresences : List EffectPresence :=
  [⟨⟨"x", "*"⟩, 1, ⟨0, 1⟩⟩, ⟨⟨"y", "*"⟩, 1, ⟨0, 1⟩⟩]

/-- The local variables after `overfullPresences` are sized to 9 and 9. -/
def overfullPlan : Plan :=
  ⟨["x", "y"], [], [("x", 9), ("y", 9)], [("x", ⟨"x", "*"⟩), ("y", ⟨"y", "*"⟩)], 18, 0⟩

/-- The same additive presence listed twice. -/
def repeatedPresences : List EffectPresence :=
  [⟨⟨"AddOnePoint", "+"⟩, 1, ⟨0, 1⟩⟩, ⟨⟨"AddOnePoint", "+"⟩, 1, ⟨0, 1⟩⟩]

/-- The local variables after `repeatedPresences` are sized to 2 and 2. -/
def repeatedPlan : Plan :=
  ⟨[], ["AddOnePoint", "AddOnePoint"], [("AddOnePoint", 4)],
    [("AddOnePoint", ⟨"AddOnePoint", "+"⟩)], 0, 4⟩

/-- One additive presence, certain, sized to between half and all of the
enabled events. -/
def additivePresences : List EffectPresence :=
  [⟨⟨"AddOnePoint", "+"⟩, 1, ⟨1 / 2, 1⟩⟩]

/-- The calendar of four events after `additivePresences` have been distributed
with all draws zero. -/
def twiceResult : EventsData :=
  { Map := [("0", ⟨"0", 1, true, [some ⟨"AddOnePoint", "+"⟩, some ⟨"AddOnePoint", "+"⟩]⟩),
            ("1", ⟨"1", 1, true, []⟩), ("2", ⟨"2", 1, true, []⟩), ("3", ⟨"3", 1, true, []⟩)],
    Keys := ["0", "1", "2", "3"],
    Stats := ⟨0, 0, [], 4, 4, 4, 2, [("AddOnePoint", 2)]⟩ }

/-- A user with a Telegram id and one active effect. -/
def sampleUser : User :=
  ⟨42, "a", 10, 2, 1, 0, 0, [some ⟨"AddOnePoint", "+"⟩]⟩

/-- The local variables after `mixedPresences` are sized to 1 and 1 on two
enabled events. -/
def mixedPlan : Plan :=
  ⟨["DoublePositivePoints"], ["AddOnePoint"], [("DoublePositivePoints", 1), ("AddOnePoint", 1)],
    [("DoublePositivePoints", ⟨"DoublePositivePoints", "*"⟩),
      ("AddOnePoint", ⟨"AddOnePoint", "+"⟩)], 1, 1⟩

/-- A calendar of three events without effects, the second one disabled. -/
def partCalendar : EventsData :=
  { Map := [("0", ⟨"0", 1, true, []⟩), ("1", ⟨"1", 1, false, []⟩), ("2", ⟨"2", 1, true, []⟩)],
    Keys := ["0", "1", "2"],
    Stats := ⟨0, 0, [], 3, 2, 2, 0, []⟩ }

/-- The calendar `partCalendar` after `mixedPresences` have been distributed with
the placement draws 1, 0, 1, 2. -/
def partResult : EventsData :=
  { Map := [("0", ⟨"0", 1, true, [some ⟨"DoublePositivePoints", "*"⟩]⟩),
            ("1", ⟨"1", 1, false, []⟩),
            ("2", ⟨"2", 1, true, [some ⟨"AddOnePoint", "+"⟩]⟩)],
    Keys := ["0", "1", "2"],
    Stats := ⟨0, 0, [], 3, 2, 2, 2, [("DoublePositivePoints", 1), ("AddOnePoint", 1)]⟩ }


/-! ## The random supply -/

theorem Intn_toNat (L d : Nat) : (Intn (L : Int) d).toNat = d % L := by
  unfold Intn
  rw [← Int.natCast_mod]
  exact Int.toNat_natCast _

theorem Intn_nonneg (n : Int) (d : Nat) (h : 0 < n) : 0 ≤ Intn n d :=
  Int.emod_nonneg _ (ne_of_gt h)

theorem Intn_lt (n : Int) (d : Nat) (h : 0 < n) : Intn n d < n :=
  Int.emod_lt_of_pos _ h

theorem goInt_of_nonneg (x : ℚ) (h : 0 ≤ x) : goInt x = ⌊x⌋ := by
  simp [goInt, h]

/-! ### Rounding to float64 -/

theorem roundHalfEven_le (y : ℚ) (M : Int) (h : y ≤ M) : roundHalfEven y ≤ M := by
  have hf : ⌊y⌋ ≤ M := by
    have := Int.floor_le y
    have : (⌊y⌋ : ℚ) ≤ M := le_trans this h
    exact_mod_cast this
  unfold roundHalfEven
  split_ifs with h1 h2 h3
  · exact hf
  · have : (⌊y⌋ : ℚ) < M := by linarith
    have : ⌊y⌋ < M := by exact_mod_cast this
    omega
  · exact hf
  · have : (⌊y⌋ : ℚ) < M := by linarith
    have : ⌊y⌋ < M := by exact_mod_cast this
    omega

theorem floor_le_roundHalfEven (y : ℚ) : ⌊y⌋ ≤ roundHalfEven y := by
  unfold roundHalfEven
  split_ifs <;> omega

theorem le_roundHalfEven (y : ℚ) (M : Int) (h : (M : ℚ) ≤ y) : M ≤ roundHalfEven y :=
  le_trans (Int.le_floor.mpr h) (floor_le_roundHalfEven y)

theorem roundFloat64_zero : roundFloat64 0 = 0 := by
  simp [roundFloat64]

theorem roundFloat64_nonneg (x : ℚ) (h : 0 ≤ x) : 0 ≤ roundFloat64 x := by
  unfold roundFloat64
  split_ifs with hx
  · exact le_refl _
  · apply mul_nonneg
    · have : (0 : Int) ≤ roundHalfEven (x / 2 ^ (max (Int.log 2 |x|) (-1022) - 52)) :=
        le_roundHalfEven _ 0 (by
          have : (0 : ℚ) < 2 ^ (max (Int.log 2 |x|) (-1022) - 52) := by positivity
          simpa using div_nonneg h this.le)
      exact_mod_cast this
    · positivity

theorem log_le_of_lt (x : ℚ) (hpos : 0 < x) (h : x < 2 ^ 53) : Int.log 2 x ≤ 52 := by
  have h1 : (2 : ℚ) ^ Int.log 2 x ≤ x := by
    have := Int.zpow_log_le_self (b := 2) (by norm_num) hpos
    simpa using this
  have h2 : (2 : ℚ) ^ Int.log 2 x < (2 : ℚ) ^ (53 : Int) := by
    refine lt_of_le_of_lt h1 ?_
    have h5 : (2 : ℚ) ^ (53 : Int) = 2 ^ 53 := by norm_num
    rw [h5]; exact h
  have := (zpow_lt_zpow_iff_right₀ (by norm_num : (1 : ℚ) < 2)).mp h2
  omega

/-- Rounding does not step over a natural number below `2 ^ 53` from below. -/
theorem roundFloat64_le (x : ℚ) (N : Nat) (h0 : 0 ≤ x) (h : x ≤ N) (hN : N < 2 ^ 53) :
    roundFloat64 x ≤ N := by
  unfold roundFloat64
  split_ifs with hx
  · exact_mod_cast Nat.zero_le N
  · have hpos : 0 < x := lt_of_le_of_ne h0 (Ne.symm hx)
    rw [abs_of_pos hpos]
    have hlog : Int.log 2 x ≤ 52 := by
      apply log_le_of_lt x hpos
      have : (N : ℚ) < 2 ^ 53 := by exact_mod_cast hN
      linarith
    obtain ⟨k, hk⟩ : ∃ k : Nat, max (Int.log 2 x) (-1022) - 52 = -(k : Int) :=
      ⟨(52 - max (Int.log 2 x) (-1022)).toNat, by omega⟩
    rw [hk]
    have h2 : (2 : ℚ) ^ (-(k : Int)) = 1 / 2 ^ k := by
      rw [zpow_neg, zpow_natCast, one_div]
    rw [h2]
    have hk0 : (0 : ℚ) < 2 ^ k := by positivity
    have hy : x / (1 / 2 ^ k) ≤ ((N * 2 ^ k : Int) : ℚ) := by
      rw [div_div_eq_mul_div, div_one]
      push_cast
      exact mul_le_mul_of_nonneg_right h hk0.le
    have := roundHalfEven_le _ _ hy
    have h3 : (roundHalfEven (x / (1 / 2 ^ k)) : ℚ) ≤ ((N * 2 ^ k : Int) : ℚ) := by
      exact_mod_cast this
    calc (roundHalfEven (x / (1 / 2 ^ k)) : ℚ) * (1 / 2 ^ k)
        ≤ ((N * 2 ^ k : Int) : ℚ) * (1 / 2 ^ k) :=
          mul_le_mul_of_nonneg_right h3 (by positivity)
      _ = N := by
          push_cast
          field_simp

/-- Rounding does not step over a natural number below `2 ^ 53` from above. -/
theorem le_roundFloat64 (x : ℚ) (N : Nat) (h : (N : ℚ) ≤ x) (hN : N < 2 ^ 53) :
    (N : ℚ) ≤ roundFloat64 x := by
  have h0 : (0 : ℚ) ≤ N := by positivity
  unfold roundFloat64
  split_ifs with hx
  · rw [hx] at h; exact h
  · have hpos : 0 < x := lt_of_le_of_ne (le_trans h0 h) (Ne.symm hx)
    rw [abs_of_pos hpos]
    by_cases hlog : Int.log 2 x ≤ 52
    · obtain ⟨k, hk⟩ : ∃ k : Nat, max (Int.log 2 x) (-1022) - 52 = -(k : Int) :=
        ⟨(52 - max (Int.log 2 x) (-1022)).toNat, by omega⟩
      rw [hk]
      have h2 : (2 : ℚ) ^ (-(k : Int)) = 1 / 2 ^ k := by
        rw [zpow_neg, zpow_natCast, one_div]
      rw [h2]
      have hk0 : (0 : ℚ) < 2 ^ k := by positivity
      have hy : ((N * 2 ^ k : Int) : ℚ) ≤ x / (1 / 2 ^ k) := by
        rw [div_div_eq_mul_div, div_one]
        push_cast
        exact mul_le_mul_of_nonneg_right h hk0.le
      have := le_roundHalfEven _ _ hy
      have h3 : ((N * 2 ^ k : Int) : ℚ) ≤ (roundHalfEven (x / (1 / 2 ^ k)) : ℚ) := by
        exact_mod_cast this
      calc (N : ℚ) = ((N * 2 ^ k : Int) : ℚ) * (1 / 2 ^ k) := by
            push_cast
            field_simp
        _ ≤ (roundHalfEven (x / (1 / 2 ^ k)) : ℚ) * (1 / 2 ^ k) :=
            mul_le_mul_of_nonneg_right h3 (by positivity)
    · have hl : 53 ≤ Int.log 2 x := by omega
      have hm : max (Int.log 2 x) (-1022) = Int.log 2 x := by omega
      rw [hm]
      have h1 : (2 : ℚ) ^ Int.log 2 x ≤ x := by
        have := Int.zpow_log_le_self (b := 2) (by norm_num) hpos
        simpa using this
      have hq : (0 : ℚ) < 2 ^ (Int.log 2 x - 52) := by positivity
      have hsplit : (2 : ℚ) ^ Int.log 2 x = ((2 ^ 52 : Int) : ℚ) * 2 ^ (Int.log 2 x - 52) := by
        have h6 : ((2 ^ 52 : Int) : ℚ) = (2 : ℚ) ^ (52 : Int) := by norm_num
        rw [h6, ← zpow_add₀ (by norm_num : (2 : ℚ) ≠ 0)]
        congr 1
        ring
      have hy : ((2 ^ 52 : Int) : ℚ) ≤ x / 2 ^ (Int.log 2 x - 52) := by
        rw [le_div_iff₀ hq, ← hsplit]
        exact h1
      have := le_roundHalfEven _ _ hy
      have h3 : ((2 ^ 52 : Int) : ℚ) ≤ (roundHalfEven (x / 2 ^ (Int.log 2 x - 52)) : ℚ) := by
        exact_mod_cast this
      have h4 : (2 : ℚ) ^ (53 : Int) ≤ 2 ^ Int.log 2 x :=
        zpow_le_zpow_right₀ (by norm_num) hl
      calc (N : ℚ) ≤ 2 ^ (53 : Int) := by
            have : (N : ℚ) < 2 ^ 53 := by exact_mod_cast hN
            have h5 : (2 : ℚ) ^ (53 : Int) = 2 ^ 53 := by norm_num
            rw [h5]; exact this.le
        _ ≤ 2 ^ Int.log 2 x := h4
        _ = ((2 ^ 52 : Int) : ℚ) * 2 ^ (Int.log 2 x - 52) := hsplit
        _ ≤ (roundHalfEven (x / 2 ^ (Int.log 2 x - 52)) : ℚ) * 2 ^ (Int.log 2 x - 52) :=
            mul_le_mul_of_nonneg_right h3 hq.le

theorem roundFloat64_natCast (N : Nat) (hN : N < 2 ^ 53) : roundFloat64 N = N :=
  le_antisymm (roundFloat64_le N N (by positivity) (le_refl _) hN)
    (le_roundFloat64 N N (le_refl _) hN)

theorem float64_natCast (N : Nat) (hN : N < 2 ^ 53) : float64 (N : Int) = N := by
  unfold float64
  rw [Int.cast_natCast]
  exact roundFloat64_natCast N hN

theorem mulFloat64_nonneg (x y : ℚ) (hx : 0 ≤ x) (hy : 0 ≤ y) : 0 ≤ mulFloat64 x y :=
  roundFloat64_nonneg _ (mul_nonneg (roundFloat64_nonneg x hx) (roundFloat64_nonneg y hy))

theorem goInt_nonneg (x : ℚ) (h : 0 ≤ x) : 0 ≤ goInt x := by
  rw [goInt_of_nonneg x h]
  exact Int.floor_nonneg.mpr h

theorem scaleInt_nonneg (x : ℚ) (n : Int) (hx : 0 ≤ x) (hn : 0 ≤ n) : 0 ≤ scaleInt x n := by
  unfold scaleInt float64
  exact goInt_nonneg _ (mulFloat64_nonneg _ _ hx
    (roundFloat64_nonneg _ (by exact_mod_cast hn)))

theorem scaleInt_zero (x : ℚ) : scaleInt x 0 = 0 := by
  simp [scaleInt, float64, mulFloat64, roundFloat64_zero, goInt]

/-- The exact product of the two `float64` operands of `int(x * float64(N))`. -/
theorem mulFloat64_natCast (x : ℚ) (N : Nat) (hN : N < 2 ^ 53) :
    mulFloat64 x (float64 (N : Int)) = roundFloat64 (roundFloat64 x * N) := by
  unfold mulFloat64
  rw [float64_natCast N hN, roundFloat64_natCast N hN]

/-- For a factor of `[0, 1]` and a natural number `N < 2 ^ 53`, the value of
`int(x * float64(N))` lies between the floor and the ceiling of the exact
product of the `float64` nearest to `x` with `N`, hence between 0 and `N`. -/
theorem scaleInt_bounds (x : ℚ) (N : Nat) (h0 : 0 ≤ x) (h1 : x ≤ 1) (hN : N < 2 ^ 53) :
    ⌊roundFloat64 x * N⌋ ≤ scaleInt x N ∧ scaleInt x N ≤ ⌈roundFloat64 x * N⌉ ∧
    0 ≤ scaleInt x N ∧ scaleInt x N ≤ N := by
  have hr0 : 0 ≤ roundFloat64 x := roundFloat64_nonneg x h0
  have hr1 : roundFloat64 x ≤ 1 := by
    have := roundFloat64_le x 1 h0 (by simpa using h1) (by norm_num)
    simpa using this
  have hN0 : (0 : ℚ) ≤ N := by positivity
  have hp0 : 0 ≤ roundFloat64 x * N := mul_nonneg hr0 hN0
  have hpN : roundFloat64 x * N ≤ N := by
    calc roundFloat64 x * N ≤ 1 * N := mul_le_mul_of_nonneg_right hr1 hN0
      _ = N := one_mul _
  have hs : scaleInt x N = ⌊roundFloat64 (roundFloat64 x * N)⌋ := by
    unfold scaleInt
    rw [mulFloat64_natCast x N hN, goInt_of_nonneg _ (roundFloat64_nonneg _ hp0)]
  have hfl : (0 : Int) ≤ ⌊roundFloat64 x * N⌋ := Int.floor_nonneg.mpr hp0
  have hcl : ⌈roundFloat64 x * N⌉ ≤ (N : Int) := Int.ceil_le.mpr (by simpa using hpN)
  have hcl0 : (0 : Int) ≤ ⌈roundFloat64 x * N⌉ := Int.ceil_nonneg hp0
  have hlow : ((⌊roundFloat64 x * N⌋.toNat : Nat) : ℚ) ≤ roundFloat64 (roundFloat64 x * N) := by
    apply le_roundFloat64
    · have : ((⌊roundFloat64 x * N⌋.toNat : Nat) : ℚ) = ((⌊roundFloat64 x * N⌋ : Int) : ℚ) := by
        have := Int.toNat_of_nonneg hfl
        exact_mod_cast congrArg (fun z : Int => (z : ℚ)) this
      rw [this]
      exact Int.floor_le _
    · have : ⌊roundFloat64 x * N⌋ ≤ (N : Int) := le_trans (Int.floor_le_ceil _) hcl
      omega
  have hhigh : roundFloat64 (roundFloat64 x * N) ≤ ((⌈roundFloat64 x * N⌉.toNat : Nat) : ℚ) := by
    apply roundFloat64_le _ _ hp0
    · have : ((⌈roundFloat64 x * N⌉.toNat : Nat) : ℚ) = ((⌈roundFloat64 x * N⌉ : Int) : ℚ) := by
        have := Int.toNat_of_nonneg hcl0
        exact_mod_cast congrArg (fun z : Int => (z : ℚ)) this
      rw [this]
      exact Int.le_ceil _
    · omega
  have h1 : ⌊roundFloat64 x * N⌋ ≤ scaleInt x N := by
    rw [hs]
    apply Int.le_floor.mpr
    have : ((⌊roundFloat64 x * N⌋.toNat : Nat) : ℚ) = ((⌊roundFloat64 x * N⌋ : Int) : ℚ) := by
      have := Int.toNat_of_nonneg hfl
      exact_mod_cast congrArg (fun z : Int => (z : ℚ)) this
    rw [← this]
    exact hlow
  have h2 : scaleInt x N ≤ ⌈roundFloat64 x * N⌉ := by
    rw [hs]
    have : ((⌈roundFloat64 x * N⌉.toNat : Nat) : ℚ) = ((⌈roundFloat64 x * N⌉ : Int) : ℚ) := by
      have := Int.toNat_of_nonneg hcl0
      exact_mod_cast congrArg (fun z : Int => (z : ℚ)) this
    rw [this] at hhigh
    have h3 : (⌊roundFloat64 (roundFloat64 x * N)⌋ : ℚ) ≤ ((⌈roundFloat64 x * N⌉ : Int) : ℚ) :=
      le_trans (Int.floor_le _) hhigh
    exact_mod_cast h3
  exact ⟨h1, h2, le_trans hfl h1, le_trans h2 hcl⟩

theorem Float64_lt_one (d : Nat) : Float64 d < 1 := by
  unfold Float64
  rw [div_lt_one (by positivity)]
  have : d % 2 ^ 53 < 2 ^ 53 := Nat.mod_lt _ (by positivity)
  exact_mod_cast this

theorem window_succ (σ : Nat → Nat) (pos n : Nat) :
    window σ pos (n + 1) = σ pos :: window σ (pos + 1) n := rfl

/-! ## String-keyed maps -/

theorem StrMap.get?_set_same {α : Type} (m : StrMap α) (k : String) (v : α) :
    StrMap.get? (StrMap.set m k v) k = some v := by
  induction m with
  | nil => simp [StrMap.set, StrMap.get?]
  | cons kv m ih =>
    obtain ⟨k', v'⟩ := kv
    by_cases h : k' = k
    · simp [StrMap.set, StrMap.get?, h]
    · simp [StrMap.set, StrMap.get?, h, ih]

theorem StrMap.get?_set_other {α : Type} (m : StrMap α) (k k' : String) (v : α) (h : k' ≠ k) :
    StrMap.get? (StrMap.set m k v) k' = StrMap.get? m k' := by
  induction m with
  | nil => simp [StrMap.set, StrMap.get?, Ne.symm h]
  | cons kv m ih =>
    obtain ⟨k0, v0⟩ := kv
    by_cases h0 : k0 = k
    · subst h0
      simp [StrMap.set, StrMap.get?, Ne.symm h]
    · by_cases h1 : k0 = k'
      · subst h1
        simp [StrMap.set, StrMap.get?, h0]
      · simp [StrMap.set, StrMap.get?, h0, h1, ih]

theorem StrMap.getI_set_same (m : StrMap Int) (k : String) (v : Int) :
    StrMap.getI (StrMap.set m k v) k = v := by
  simp [StrMap.getI, StrMap.get?_set_same]

theorem StrMap.getI_set_other (m : StrMap Int) (k k' : String) (v : Int) (h : k' ≠ k) :
    StrMap.getI (StrMap.set m k v) k' = StrMap.getI m k' := by
  simp [StrMap.getI, StrMap.get?_set_other _ _ _ _ h]

theorem StrMap.total_set (m : StrMap Int) (k : String) (v : Int) :
    StrMap.total (StrMap.set m k v) = StrMap.total m - StrMap.getI m k + v := by
  induction m with
  | nil => simp [StrMap.set, StrMap.total, StrMap.getI, StrMap.get?]
  | cons kv m ih =>
    obtain ⟨k0, v0⟩ := kv
    by_cases h0 : k0 = k
    · simp [StrMap.set, StrMap.total, StrMap.getI, StrMap.get?, h0]
      ring
    · simp only [StrMap.total, StrMap.getI] at ih
      simp [StrMap.set, StrMap.total, StrMap.getI, StrMap.get?, h0, ih]
      ring

/-! ## The activation loop -/

theorem enabledCount_disable (Sets : List Set) :
    enabledCount (Sets.map (fun set => { set with Enabled := false })) = 0 := by
  induction Sets with
  | nil => rfl
  | cons s l ih =>
    unfold enabledCount at *
    simp [List.filter_cons]

theorem enabledCount_set (Sets : List Set) (idx : Nat) (set : Set)
    (hget : Sets[idx]? = some set) (hoff : set.Enabled = false) :
    enabledCount (Sets.set idx { set with Enabled := true }) = enabledCount Sets + 1 := by
  induction Sets generalizing idx with
  | nil => simp at hget
  | cons s l ih =>
    cases idx with
    | zero =>
      simp at hget
      subst hget
      simp [enabledCount, List.filter_cons, hoff]
    | succ k =>
      simp at hget
      have := ih k hget
      unfold enabledCount at *
      by_cases hs : s.Enabled = true
      · simp [List.filter_cons, hs]
        simpa using this
      · simp [List.filter_cons, hs]
        simpa using this

theorem exists_disabled (Sets : List Set) (h : enabledCount Sets < Sets.length) :
    ∃ j set, j < Sets.length ∧ Sets[j]? = some set ∧ set.Enabled = false := by
  induction Sets with
  | nil => simp at h
  | cons s l ih =>
    by_cases hs : s.Enabled = true
    · have h1 : enabledCount l < l.length := by
        simp [enabledCount, List.filter_cons, hs] at h
        simpa [enabledCount] using h
      obtain ⟨j, set, hj, hget, hoff⟩ := ih h1
      exact ⟨j + 1, set, by simpa using hj, by simpa using hget, hoff⟩
    · exact ⟨0, s, by simp, by simp, by simpa using hs⟩

/-- What a finished run of the activation loop has done. -/
theorem enableLoop_done (n : Int) :
    ∀ (ds : List Nat) (i : Int) (ed : EventsData) (Sets : List Set) (res : EventsData × List Set),
      enableLoop n ds i ed Sets = .done res → i ≤ n →
      (enabledCount res.2 : Int) = enabledCount Sets + (n - i) ∧ res.2.length = Sets.length := by
  intro ds
  induction ds with
  | nil =>
    intro i ed Sets res h hin
    unfold enableLoop at h
    split at h
    · split at h <;> cases h
    · cases h
      have : n - i = 0 := by omega
      simp [this]
  | cons d ds ih =>
    intro i ed Sets res h hin
    unfold enableLoop at h
    split at h
    · rename_i hlt
      split at h
      · cases h
      · simp only at h
        split at h
        · cases h
        · rename_i set hget
          split at h
          · rename_i hoff
            have hoff' : set.Enabled = false := by simpa using hoff
            obtain ⟨h1, h2⟩ := ih _ _ _ _ h (by omega)
            rw [enabledCount_set _ _ _ hget hoff'] at h1
            refine ⟨?_, ?_⟩
            · rw [h1]; push_cast; ring
            · rw [h2]; simp
          · exact ih _ _ _ _ h hin
    · cases h
      have : n - i = 0 := by omega
      simp [this]

/-- The activation loop finishes on a fair sequence of draws. -/
theorem enableLoop_finishes (n : Int) (σ : Nat → Nat) :
    ∀ (r : Nat) (pos : Nat) (i : Int) (ed : EventsData) (Sets : List Set),
      ed.Stats.TotalSetsNum = Sets.length → Fair Sets.length σ → n - i ≤ r →
      (enabledCount Sets : Int) + (n - i) < Sets.length →
      ∃ m res, enableLoop n (window σ pos m) i ed Sets = .done res := by
  intro r
  induction r with
  | zero =>
    intro pos i ed Sets hT hfair hr hcap
    refine ⟨0, (ed, Sets), ?_⟩
    have : ¬ i < n := by omega
    simp [window, enableLoop, this]
  | succ r ih =>
    intro pos i ed Sets hT hfair hr hcap
    by_cases hlt : i < n
    · have hc : enabledCount Sets < Sets.length := by omega
      obtain ⟨j, sj, hj, hget, hoff⟩ := exists_disabled Sets hc
      obtain ⟨q, hq, hσ⟩ := hfair j hj pos
      -- walk to the first draw that hits a disabled template
      have hpos : ¬ ed.Stats.TotalSetsNum ≤ 0 := by rw [hT]; omega
      have hidx : ∀ pos, (Intn ed.Stats.TotalSetsNum (σ pos)).toNat = σ pos % Sets.length := by
        intro pos
        rw [hT, Intn_toNat]
      have hit : ∀ (pos : Nat) (s : Set), Sets[σ pos % Sets.length]? = some s →
          s.Enabled = false →
          ∃ m res, enableLoop n (window σ pos m) i ed Sets = .done res := by
        intro pos s hs hsoff
        obtain ⟨m, res, hm⟩ := ih (pos + 1) (i + 1)
          { ed with Stats := { ed.Stats with
                EnabledSetsNum := ed.Stats.EnabledSetsNum + 1
                EnabledSets := ed.Stats.EnabledSets ++ [s.Name] } }
          (Sets.set (σ pos % Sets.length) { s with Enabled := true })
          (by simp [hT]) (by simpa using hfair) (by omega)
          (by
            rw [enabledCount_set _ _ _ hs hsoff]
            simp only [List.length_set]
            push_cast
            omega)
        refine ⟨m + 1, res, ?_⟩
        rw [window_succ, enableLoop]
        simp only [hlt, if_true, hpos, if_false, hidx, hs, hsoff]
        simpa using hm
      have key : ∀ (dist pos : Nat),
          (∃ s, Sets[σ (pos + dist) % Sets.length]? = some s ∧ s.Enabled = false) →
          ∃ m res, enableLoop n (window σ pos m) i ed Sets = .done res := by
        intro dist
        induction dist with
        | zero =>
          intro pos ⟨s, hs, hsoff⟩
          exact hit pos s hs hsoff
        | succ dist ihd =>
          intro pos hex
          have hlen : σ pos % Sets.length < Sets.length := Nat.mod_lt _ (by omega)
          obtain ⟨s, hs⟩ : ∃ s, Sets[σ pos % Sets.length]? = some s :=
            ⟨Sets[σ pos % Sets.length], List.getElem?_eq_getElem hlen⟩
          by_cases hsoff : s.Enabled = false
          · exact hit pos s hs hsoff
          · obtain ⟨m, res, hm⟩ := ihd (pos + 1) (by
              obtain ⟨s', hs', hoff'⟩ := hex
              exact ⟨s', by rw [show pos + 1 + dist = pos + (dist + 1) by omega]; exact hs', hoff'⟩)
            refine ⟨m + 1, res, ?_⟩
            rw [window_succ, enableLoop]
            have : s.Enabled = true := by simpa using hsoff
            simp only [hlt, if_true, hpos, if_false, hidx, hs, this]
            simpa using hm
      refine key (q - pos) pos ⟨sj, ?_, hoff⟩
      rw [show pos + (q - pos) = q by omega, hσ]
      exact hget
    · refine ⟨0, (ed, Sets), ?_⟩
      simp [window, enableLoop, hlt]

/-- A loop that keeps drawing an enabled template makes no progress. -/
theorem enableLoop_stuck (n : Int) (σ : Nat → Nat) (i : Int) (ed : EventsData) (Sets : List Set)
    (hlt : i < n) (hT : ed.Stats.TotalSetsNum = Sets.length) (hlen : 0 < Sets.length)
    (hall : ∀ q s, Sets[σ q % Sets.length]? = some s → s.Enabled = true) :
    ∀ (m pos : Nat), enableLoop n (window σ pos m) i ed Sets = .starved := by
  have hpos : ¬ ed.Stats.TotalSetsNum ≤ 0 := by rw [hT]; omega
  intro m
  induction m with
  | zero => intro pos; simp [window, enableLoop, hlt, hpos]
  | succ m ih =>
    intro pos
    have hidx : (Intn ed.Stats.TotalSetsNum (σ pos)).toNat = σ pos % Sets.length := by
      rw [hT, Intn_toNat]
    have hl : σ pos % Sets.length < Sets.length := Nat.mod_lt _ hlen
    have hs : Sets[σ pos % Sets.length]? = some Sets[σ pos % Sets.length] :=
      List.getElem?_eq_getElem hl
    rw [window_succ, enableLoop]
    simp only [hlt, if_true, hpos, if_false, hidx, hs, hall _ _ hs]
    simpa using ih (pos + 1)

/-- The activation loop writes only the two statistics of the enabled templates. -/
theorem enableLoop_frame (n : Int) :
    ∀ (ds : List Nat) (i : Int) (ed : EventsData) (Sets : List Set) (res : EventsData × List Set),
      enableLoop n ds i ed Sets = .done res →
      res.1.Map = ed.Map ∧ res.1.Keys = ed.Keys ∧
      res.1.Stats.TotalSetsNum = ed.Stats.TotalSetsNum ∧
      res.1.Stats.TotalEventsNum = ed.Stats.TotalEventsNum ∧
      res.1.Stats.EnabledEventsNum = ed.Stats.EnabledEventsNum ∧
      res.1.Stats.EnabledPointsSum = ed.Stats.EnabledPointsSum ∧
      res.1.Stats.EnabledEffectsNum = ed.Stats.EnabledEffectsNum ∧
      res.1.Stats.EnabledEffects = ed.Stats.EnabledEffects := by
  intro ds
  induction ds with
  | nil =>
    intro i ed Sets res h
    unfold enableLoop at h
    split at h
    · split at h <;> cases h
    · cases h; simp
  | cons d ds ih =>
    intro i ed Sets res h
    unfold enableLoop at h
    split at h
    · split at h
      · cases h
      · simp only at h
        split at h
        · cases h
        · split at h
          · simpa using ih _ _ _ _ h
          · exact ih _ _ _ _ h
    · cases h; simp

theorem EnabledRandomSets_frame (ed : EventsData) (Sets : List Set) (percentage : Interval)
    (draws : List Nat) (err : Option String) (ed1 : EventsData) (Sets1 : List Set)
    (h : EnabledRandomSets ed Sets percentage draws = .done (err, ed1, Sets1)) :
    ed1.Map = ed.Map ∧ ed1.Keys = ed.Keys ∧
    ed1.Stats.TotalEventsNum = ed.Stats.TotalEventsNum ∧
    ed1.Stats.EnabledEventsNum = ed.Stats.EnabledEventsNum ∧
    ed1.Stats.EnabledPointsSum = ed.Stats.EnabledPointsSum ∧
    ed1.Stats.EnabledEffectsNum = ed.Stats.EnabledEffectsNum ∧
    ed1.Stats.EnabledEffects = ed.Stats.EnabledEffects := by
  unfold EnabledRandomSets at h
  split at h
  · cases h; simp
  · split at h
    · cases h; simp
    · split at h
      · cases h; simp
      · simp only at h
        split at h
        · cases h
        · split at h
          · cases h
          · split at h
            · rename_i hloop
              cases h
              obtain ⟨h1, h2, _, h4, h5, h6, h7, h8⟩ := enableLoop_frame _ _ _ _ _ _ hloop
              exact ⟨h1, h2, h4, h5, h6, h7, h8⟩
            · cases h
            · cases h

/-! ## The sizing and rebalancing passes -/

/-- The rebalancing loop returns only when it is not entered: its condition
reads a variable that its body does not change. -/
theorem rebalance_done (E toApplyNum : Int) :
    ∀ (ds : List Nat) (names : List String) (amounts : StrMap Int)
      (res : List String × StrMap Int × List Nat),
      rebalance E toApplyNum ds names amounts = .done res →
      toApplyNum ≤ E ∧ res = (names, amounts, ds) := by
  intro ds
  induction ds with
  | nil =>
    intro names amounts res h
    unfold rebalance at h
    split at h
    · split at h <;> cases h
    · cases h; exact ⟨by omega, rfl⟩
  | cons d ds ih =>
    intro names amounts res h
    unfold rebalance at h
    split at h
    · rename_i hgt
      exfalso
      split at h
      · cases h
      · split at h
        · cases h
        · simp only at h
          split at h
          · split at h
            · cases h
            · exact absurd (ih _ _ _ h).1 (by omega)
          · exact absurd (ih _ _ _ h).1 (by omega)
    · cases h; exact ⟨by omega, rfl⟩

/-- When the placement phase is reached, rebalancing has changed nothing. -/
theorem planEffects_done (ed : EventsData) (effects : List EffectPresence) (draws : List Nat)
    (p : Plan) (ds : List Nat) (h : planEffects ed effects draws = .done (p, ds)) :
    sizeEffects ed.Stats.EnabledEventsNum effects draws emptyPlan = .done (p, ds) ∧
    p.multiplierToApplyNum ≤ ed.Stats.EnabledEventsNum ∧
    p.additiveToApplyNum ≤ ed.Stats.EnabledEventsNum := by
  unfold planEffects at h
  split at h
  · cases h
  · cases h
  · rename_i p0 ds1 hs
    split at h
    · cases h
    · cases h
    · rename_i mult amounts1 ds2 hm
      obtain ⟨hm1, hm2⟩ := rebalance_done _ _ _ _ _ _ hm
      split at h
      · cases h
      · cases h
      · rename_i add amounts2 ds3 ha
        obtain ⟨ha1, ha2⟩ := rebalance_done _ _ _ _ _ _ ha
        cases hm2
        cases ha2
        cases h
        exact ⟨hs, hm1, ha1⟩

theorem targetSum_set_fresh (amounts : StrMap Int) (names : List String) (k : String) (v : Int)
    (h : k ∉ names) : targetSum (amounts.set k v) names = targetSum amounts names := by
  unfold targetSum
  congr 1
  apply List.map_congr_left
  intro n hn
  exact StrMap.getI_set_other _ _ _ _ (fun e => h (e ▸ hn))

theorem targetSum_append (amounts : StrMap Int) (xs ys : List String) :
    targetSum amounts (xs ++ ys) = targetSum amounts xs + targetSum amounts ys := by
  simp [targetSum]

theorem record_sizingInv (seen : List String) (p : Plan) (effect : Effect) (v : Int)
    (hinv : SizingInv seen p) (hnew : effect.Name ∉ seen) :
    SizingInv (effect.Name :: seen) (p.record effect v) := by
  have hm : effect.Name ∉ p.multiplierEffectsNames := fun h => hnew (hinv.mult_seen _ h)
  have ha : effect.Name ∉ p.additiveEffectsNames := fun h => hnew (hinv.add_seen _ h)
  have h0 : p.effectsAmountToApply.getI effect.Name = 0 := by
    simp [StrMap.getI, hinv.fresh _ hnew]
  have hfresh : ∀ n, n ∉ effect.Name :: seen →
      (p.effectsAmountToApply.set effect.Name (p.effectsAmountToApply.getI effect.Name + v)).get? n
        = none := by
    intro n hn
    simp only [List.mem_cons, not_or] at hn
    rw [StrMap.get?_set_other _ _ _ _ hn.1]
    exact hinv.fresh _ hn.2
  unfold Plan.record
  by_cases hk : effect.Key = "*"
  · simp only [hk, if_true]
    refine ⟨?_, ?_, hfresh, ?_, ?_⟩
    · intro n hn
      simp only [List.mem_append, List.mem_singleton] at hn
      rcases hn with hn | hn
      · exact List.mem_cons_of_mem _ (hinv.mult_seen _ hn)
      · simp [hn]
    · intro n hn
      exact List.mem_cons_of_mem _ (hinv.add_seen _ hn)
    · simp only [targetSum_append, targetSum_set_fresh _ _ _ _ hm, hinv.mult_sum]
      simp [targetSum, StrMap.getI_set_same, h0]
    · simp only [targetSum_set_fresh _ _ _ _ ha, hinv.add_sum]
  · by_cases hk2 : effect.Key = "+" ∨ effect.Key = "-"
    · simp only [hk, if_false, hk2, if_true]
      refine ⟨?_, ?_, hfresh, ?_, ?_⟩
      · intro n hn
        exact List.mem_cons_of_mem _ (hinv.mult_seen _ hn)
      · intro n hn
        simp only [List.mem_append, List.mem_singleton] at hn
        rcases hn with hn | hn
        · exact List.mem_cons_of_mem _ (hinv.add_seen _ hn)
        · simp [hn]
      · simp only [targetSum_set_fresh _ _ _ _ hm, hinv.mult_sum]
      · simp only [targetSum_append, targetSum_set_fresh _ _ _ _ ha, hinv.add_sum]
        simp [targetSum, StrMap.getI_set_same, h0]
    · simp only [hk, if_false, hk2]
      refine ⟨?_, ?_, hfresh, ?_, ?_⟩
      · intro n hn
        exact List.mem_cons_of_mem _ (hinv.mult_seen _ hn)
      · intro n hn
        exact List.mem_cons_of_mem _ (hinv.add_seen _ hn)
      · simp only [targetSum_set_fresh _ _ _ _ hm, hinv.mult_sum]
      · simp only [targetSum_set_fresh _ _ _ _ ha, hinv.add_sum]

theorem sizeEffects_sizingInv (E : Int) :
    ∀ (effects : List EffectPresence) (ds : List Nat) (p : Plan) (seen : List String)
      (res : Plan × List Nat),
      sizeEffects E effects ds p = .done res → SizingInv seen p →
      (effects.map (fun q => q.Effect.Name)).Nodup →
      (∀ q ∈ effects, q.Effect.Name ∉ seen) →
      ∃ seen1, SizingInv seen1 res.1 := by
  intro effects
  induction effects with
  | nil =>
    intro ds p seen res h hinv _ _
    unfold sizeEffects at h
    cases h
    exact ⟨seen, hinv⟩
  | cons q effects ih =>
    intro ds p seen res h hinv hnd hseen
    simp only [List.map_cons, List.nodup_cons, List.mem_map, not_exists, not_and] at hnd
    cases ds with
    | nil => simp [sizeEffects] at h
    | cons d ds1 =>
      simp only [sizeEffects] at h
      by_cases hF : Float64 d < q.Possible
      · simp only [hF, if_true] at h
        by_cases hz : scaleInt q.Amount.Max E - scaleInt q.Amount.Min E ≤ 0
        · simp [hz] at h
        · simp only [hz, if_false] at h
          cases ds1 with
          | nil => simp at h
          | cons d2 ds2 =>
            simp only at h
            refine ih _ _ (q.Effect.Name :: seen) _ h
              (record_sizingInv seen p q.Effect _ hinv (hseen q (List.mem_cons_self _ _)))
              hnd.2 ?_
            intro q1 hq1
            simp only [List.mem_cons, not_or]
            exact ⟨fun e => hnd.1 q1 hq1 e, hseen q1 (List.mem_cons_of_mem _ hq1)⟩
      · simp only [hF, if_false] at h
        exact ih _ _ seen _ h hinv hnd.2 (fun q1 hq1 => hseen q1 (List.mem_cons_of_mem _ hq1))

theorem record_effectsToApply (p : Plan) (effect : Effect) (v : Int) :
    (p.record effect v).effectsToApply = p.effectsToApply.set effect.Name effect := by
  unfold Plan.record
  split
  · rfl
  · split <;> rfl

theorem record_multiplierEffectsNames (p : Plan) (effect : Effect) (v : Int) :
    (p.record effect v).multiplierEffectsNames =
      if effect.Key = "*" then p.multiplierEffectsNames ++ [effect.Name]
      else p.multiplierEffectsNames := by
  unfold Plan.record
  split
  · rfl
  · split <;> rfl

theorem record_additiveEffectsNames (p : Plan) (effect : Effect) (v : Int) :
    (p.record effect v).additiveEffectsNames =
      if effect.Key = "*" then p.additiveEffectsNames
      else if effect.Key = "+" ∨ effect.Key = "-" then p.additiveEffectsNames ++ [effect.Name]
      else p.additiveEffectsNames := by
  unfold Plan.record
  split
  · rfl
  · split <;> rfl

theorem record_keyInv (all : List EffectPresence) (p : Plan) (q : EffectPresence) (v : Int)
    (hinv : KeyInv all p) (hq : q ∈ all) (hcons : KeysConsistent all) :
    KeyInv all (p.record q.Effect v) := by
  have hkey : ∀ e, p.effectsToApply.get? q.Effect.Name = some e → e.Key = q.Effect.Key := by
    intro e he
    obtain ⟨hn, q0, hq0, rfl⟩ := hinv.src _ _ he
    exact hcons q0 hq0 q hq hn
  refine ⟨?_, ?_, ?_⟩
  · intro n hn
    rw [record_effectsToApply]
    rw [record_multiplierEffectsNames] at hn
    by_cases hnq : n = q.Effect.Name
    · subst hnq
      refine ⟨q.Effect, StrMap.get?_set_same _ _ _, ?_⟩
      by_cases hk : q.Effect.Key = "*"
      · exact hk
      · simp only [hk, if_false] at hn
        obtain ⟨e, he, hmul⟩ := hinv.mult _ hn
        exact absurd ((hkey e he).symm.trans hmul) hk
    · rw [StrMap.get?_set_other _ _ _ _ hnq]
      apply hinv.mult
      split at hn
      · simp only [List.mem_append, List.mem_singleton] at hn
        exact hn.resolve_right hnq
      · exact hn
  · intro n hn
    rw [record_effectsToApply]
    rw [record_additiveEffectsNames] at hn
    by_cases hnq : n = q.Effect.Name
    · subst hnq
      refine ⟨q.Effect, StrMap.get?_set_same _ _ _, ?_⟩
      by_cases hk : q.Effect.Key = "*"
      · simp only [hk, if_true] at hn
        obtain ⟨e, he, hadd⟩ := hinv.add _ hn
        unfold Effect.isAdditive at hadd ⊢
        rw [hkey e he] at hadd
        exact hadd
      · by_cases hk2 : q.Effect.Key = "+" ∨ q.Effect.Key = "-"
        · exact hk2
        · simp only [hk, if_false, hk2] at hn
          obtain ⟨e, he, hadd⟩ := hinv.add _ hn
          unfold Effect.isAdditive at hadd
          rw [hkey e he] at hadd
          exact absurd hadd hk2
    · rw [StrMap.get?_set_other _ _ _ _ hnq]
      apply hinv.add
      split at hn
      · exact hn
      · split at hn
        · simp only [List.mem_append, List.mem_singleton] at hn
          exact hn.resolve_right hnq
        · exact hn
  · intro n e he
    rw [record_effectsToApply] at he
    by_cases hnq : n = q.Effect.Name
    · subst hnq
      rw [StrMap.get?_set_same] at he
      cases he
      exact ⟨rfl, q, hq, rfl⟩
    · rw [StrMap.get?_set_other _ _ _ _ hnq] at he
      exact hinv.src _ _ he

theorem sizeEffects_keyInv (E : Int) (all : List EffectPresence) (hcons : KeysConsistent all) :
    ∀ (effects : List EffectPresence) (ds : List Nat) (p : Plan) (res : Plan × List Nat),
      sizeEffects E effects ds p = .done res → KeyInv all p →
      (∀ q ∈ effects, q ∈ all) → KeyInv all res.1 := by
  intro effects
  induction effects with
  | nil =>
    intro ds p res h hinv _
    unfold sizeEffects at h
    cases h
    exact hinv
  | cons q effects ih =>
    intro ds p res h hinv hsub
    have hsub' : ∀ q1 ∈ effects, q1 ∈ all := fun q1 h1 => hsub q1 (List.mem_cons_of_mem _ h1)
    cases ds with
    | nil => simp [sizeEffects] at h
    | cons d ds1 =>
      simp only [sizeEffects] at h
      by_cases hF : Float64 d < q.Possible
      · simp only [hF, if_true] at h
        by_cases hz : scaleInt q.Amount.Max E - scaleInt q.Amount.Min E ≤ 0
        · simp [hz] at h
        · simp only [hz, if_false] at h
          cases ds1 with
          | nil => simp at h
          | cons d2 ds2 =>
            simp only at h
            exact ih _ _ _ h (record_keyInv all p q _ hinv (hsub q (List.mem_cons_self _ _)) hcons)
              hsub'
      · simp only [hF, if_false] at h
        exact ih _ _ _ h hinv hsub'

/-- The sizing draw panics on an activated presence whose two bounds truncate to
the same count. -/
theorem AssignRandomEffects_crash_of_empty_range (ed : EventsData) (q : EffectPresence)
    (rest : List EffectPresence) (d : Nat) (ds : List Nat) (hp : 1 ≤ q.Possible)
    (hrange : scaleInt q.Amount.Max ed.Stats.EnabledEventsNum
        - scaleInt q.Amount.Min ed.Stats.EnabledEventsNum ≤ 0) :
    AssignRandomEffects ed (q :: rest) (d :: ds) = .crash := by
  have hF : Float64 d < q.Possible := lt_of_lt_of_le (Float64_lt_one d) hp
  simp [AssignRandomEffects, planEffects, sizeEffects, hF, hrange]

/-! ## The placement loops -/

/-- A property of the calendar that every attachment the loop can make preserves
holds when the inner placement loop returns. -/
theorem placeLoop_invariant (Inv : EventsData → Prop) (fits : Nat → Bool) (effectName : String)
    (effect : Option Effect) (target : Int)
    (hstep : ∀ ed eventName event, Inv ed → ed.Map.get? eventName = some event →
      event.Enabled = true → fits event.Effects.length = true →
      Inv (attach ed eventName event effectName effect)) :
    ∀ (ds : List Nat) (i : Int) (ed : EventsData) (res : EventsData × List Nat),
      placeLoop fits effectName effect target ds i ed = .done res → Inv ed → Inv res.1 := by
  intro ds
  induction ds with
  | nil =>
    intro i ed res h hinv
    unfold placeLoop at h
    split at h
    · split at h <;> cases h
    · cases h; exact hinv
  | cons d ds ih =>
    intro i ed res h hinv
    unfold placeLoop at h
    split at h
    · split at h
      · cases h
      · split at h
        · cases h
        · split at h
          · cases h
          · rename_i eventName _ event hget
            split at h
            · rename_i hc
              simp only [Bool.and_eq_true] at hc
              exact ih _ _ _ h (hstep _ _ _ hinv hget hc.1 hc.2)
            · exact ih _ _ _ h hinv
    · cases h; exact hinv

/-- The outer placement loop preserves what each of its inner loops preserves. -/
theorem placeAll_invariant (Inv : EventsData → Prop) (fits : Nat → Bool) (p : Plan) :
    ∀ (names : List String),
      (∀ n ∈ names, ∀ ed eventName event, Inv ed → ed.Map.get? eventName = some event →
        event.Enabled = true → fits event.Effects.length = true →
        Inv (attach ed eventName event n (p.effectsToApply.get? n))) →
      ∀ (ds : List Nat) (ed : EventsData) (res : EventsData × List Nat),
        placeAll fits p names ds ed = .done res → Inv ed → Inv res.1 := by
  intro names
  induction names with
  | nil =>
    intro _ ds ed res h hinv
    unfold placeAll at h
    cases h; exact hinv
  | cons n names ih =>
    intro hstep ds ed res h hinv
    unfold placeAll at h
    split at h
    · cases h
    · cases h
    · rename_i ed1 ds1 hloop
      have h1 : Inv ed1 :=
        placeLoop_invariant Inv fits n _ _ (hstep n (List.mem_cons_self _ _)) _ _ _ _ hloop hinv
      exact ih (fun m hm => hstep m (List.mem_cons_of_mem _ hm)) _ _ _ h h1

theorem attach_statsBalanced (ed : EventsData) (eventName : String) (event : Event)
    (effectName : String) (effect : Option Effect) (h : statsBalanced ed) :
    statsBalanced (attach ed eventName event effectName effect) := by
  unfold statsBalanced at *
  simp only [attach, StrMap.total_set, h]
  ring

theorem placeEffects_invariant (Inv : EventsData → Prop) (p : Plan)
    (hstep : ∀ n ed eventName event, Inv ed →
        ed.Map.get? eventName = some event →
        Inv (attach ed eventName event n (p.effectsToApply.get? n)))
    (ds : List Nat) (ed ed1 : EventsData)
    (h : placeEffects p ds ed = .done ed1) (hinv : Inv ed) : Inv ed1 := by
  unfold placeEffects at h
  split at h
  · cases h
  · cases h
  · rename_i edm dsm hm
    have h1 := placeAll_invariant Inv fitsMultiplier p _
      (fun n _ ed eventName event hi hg _ _ => hstep n ed eventName event hi hg)
      _ _ _ hm hinv
    split at h
    · cases h
    · cases h
    · rename_i eda dsa ha
      cases h
      exact placeAll_invariant Inv fitsAdditive p _
        (fun n _ ed eventName event hi hg _ _ => hstep n ed eventName event hi hg)
        _ _ _ ha h1

theorem attach_get? (ed : EventsData) (eventName : String) (event : Event) (effectName : String)
    (effect : Option Effect) (name : String) :
    (attach ed eventName event effectName effect).Map.get? name =
      if name = eventName then some (event.AddEffect effect) else ed.Map.get? name := by
  unfold attach
  by_cases h : name = eventName
  · subst h; simp [StrMap.get?_set_same]
  · simp [h, StrMap.get?_set_other _ _ _ _ h]

/-! ## The calendar loop -/

theorem builtOn_cons (now : Nat → Time) (cv : Time → Bool) (ne : Time → Event) (i : Nat)
    (minutes : List Nat) :
    builtOn now cv ne (i :: minutes) =
      if cv (minuteOfDay now i) then ne (minuteOfDay now i) :: builtOn now cv ne minutes
      else builtOn now cv ne minutes := by
  unfold builtOn
  by_cases h : cv (minuteOfDay now i) = true <;> simp [List.filter_cons, h]

theorem wrapInt_wrapInt_add (a b : Int) : wrapInt (wrapInt a + b) = wrapInt (a + b) := by
  unfold wrapInt
  omega

theorem wrapInt_of_range (a : Int) (h1 : -2 ^ 63 ≤ a) (h2 : a < 2 ^ 63) : wrapInt a = a := by
  unfold wrapInt
  omega

theorem wrapInt_range (a : Int) : -2 ^ 63 ≤ wrapInt a ∧ wrapInt a < 2 ^ 63 := by
  unfold wrapInt
  omega

/-- The statistics and the key list after the calendar loop has run over a list
of minutes. -/
theorem foldl_buildStep (now : Nat → Time) (cv : Time → Bool) (ne : Time → Event) :
    ∀ (minutes : List Nat) (ed : EventsData),
      let ed1 := minutes.foldl (buildStep now cv ne) ed
      ed1.Keys = ed.Keys ++ (builtOn now cv ne minutes).map (fun e => e.Name) ∧
      ed1.Stats.TotalEventsNum = ed.Stats.TotalEventsNum + (builtOn now cv ne minutes).length ∧
      ed1.Stats.EnabledEventsNum
        = ed.Stats.EnabledEventsNum + enabledEvents (builtOn now cv ne minutes) ∧
      wrapInt ed1.Stats.EnabledPointsSum
        = wrapInt (ed.Stats.EnabledPointsSum + enabledPoints (builtOn now cv ne minutes)) ∧
      (wrapInt ed.Stats.EnabledPointsSum = ed.Stats.EnabledPointsSum →
        wrapInt ed1.Stats.EnabledPointsSum = ed1.Stats.EnabledPointsSum) := by
  intro minutes
  induction minutes with
  | nil => intro ed; simp [builtOn, enabledEvents, enabledPoints]
  | cons i minutes ih =>
    intro ed
    simp only [List.foldl_cons]
    obtain ⟨h1, h2, h3, h4, h5⟩ := ih (buildStep now cv ne ed i)
    rw [builtOn_cons]
    by_cases hv : cv (minuteOfDay now i) = true
    · by_cases he : (ne (minuteOfDay now i)).Enabled = true
      · have hK : (buildStep now cv ne ed i).Keys = ed.Keys ++ [(ne (minuteOfDay now i)).Name] := by
          simp [buildStep, hv, he]
        have hT : (buildStep now cv ne ed i).Stats.TotalEventsNum
            = ed.Stats.TotalEventsNum + 1 := by
          simp [buildStep, hv, he]
        have hE : (buildStep now cv ne ed i).Stats.EnabledEventsNum
            = ed.Stats.EnabledEventsNum + 1 := by
          simp [buildStep, hv, he]
        have hP : (buildStep now cv ne ed i).Stats.EnabledPointsSum
            = wrapInt (ed.Stats.EnabledPointsSum + (ne (minuteOfDay now i)).Points) := by
          simp [buildStep, hv, he]
        simp only [hv, if_true]
        refine ⟨?_, ?_, ?_, ?_, ?_⟩
        · rw [h1, hK]; simp
        · rw [h2, hT]; simp; ring
        · rw [h3, hE]; simp [enabledEvents, List.filter_cons, he]; ring
        · rw [h4, hP, wrapInt_wrapInt_add]
          simp [enabledPoints, List.filter_cons, he, add_assoc]
        · intro _
          apply h5
          rw [hP]
          have := wrapInt_range (ed.Stats.EnabledPointsSum + (ne (minuteOfDay now i)).Points)
          exact wrapInt_of_range _ this.1 this.2
      · have hK : (buildStep now cv ne ed i).Keys = ed.Keys ++ [(ne (minuteOfDay now i)).Name] := by
          simp [buildStep, hv, he]
        have hT : (buildStep now cv ne ed i).Stats.TotalEventsNum
            = ed.Stats.TotalEventsNum + 1 := by
          simp [buildStep, hv, he]
        have hE : (buildStep now cv ne ed i).Stats.EnabledEventsNum
            = ed.Stats.EnabledEventsNum := by
          simp [buildStep, hv, he]
        have hP : (buildStep now cv ne ed i).Stats.EnabledPointsSum
            = ed.Stats.EnabledPointsSum := by
          simp [buildStep, hv, he]
        simp only [hv, if_true]
        refine ⟨?_, ?_, ?_, ?_, ?_⟩
        · rw [h1, hK]; simp
        · rw [h2, hT]; simp; ring
        · rw [h3, hE]; simp [enabledEvents, List.filter_cons, he]
        · rw [h4, hP]; simp [enabledPoints, List.filter_cons, he]
        · intro hr
          apply h5
          rw [hP]
          exact hr
    · have hS : buildStep now cv ne ed i = ed := by simp [buildStep, hv]
      rw [hS] at h1 h2 h3 h4 h5
      rw [hS]
      simp only [hv, Bool.false_eq_true, if_false]
      exact ⟨h1, h2, h3, h4, h5⟩

theorem buildCalendar_stats (now : Nat → Time) (cv : Time → Bool) (ne : Time → Event)
    (ed : EventsData) (hr : wrapInt ed.Stats.EnabledPointsSum = ed.Stats.EnabledPointsSum) :
    (buildCalendar now cv ne ed).Keys = ed.Keys ++ (builtEvents now cv ne).map (fun e => e.Name) ∧
    (buildCalendar now cv ne ed).Stats.TotalEventsNum
      = ed.Stats.TotalEventsNum + (builtEvents now cv ne).length ∧
    (buildCalendar now cv ne ed).Stats.EnabledEventsNum
      = ed.Stats.EnabledEventsNum + enabledEvents (builtEvents now cv ne) ∧
    (buildCalendar now cv ne ed).Stats.EnabledPointsSum
      = wrapInt (ed.Stats.EnabledPointsSum + enabledPoints (builtEvents now cv ne)) := by
  have h := foldl_buildStep now cv ne (List.range (24 * 60)) ed
  unfold buildCalendar builtEvents
  unfold builtOn at h
  obtain ⟨h1, h2, h3, h4, h5⟩ := h
  exact ⟨h1, h2, h3, by rw [← h4]; exact (h5 hr).symm⟩

/-! ## Sorting the ranking -/

/-- The first loop of the `ranking` case collects the triples of the non-nil
users, in the order of the store. -/
theorem collectRanking_triples (Users : UserStore) :
    (collectRanking Users).map Rank.triple = nonNilTriples Users := by
  induction Users with
  | nil => rfl
  | cons entry us ih =>
    obtain ⟨k, u⟩ := entry
    cases u with
    | none => simpa [collectRanking, nonNilTriples] using ih
    | some u => simpa [collectRanking, nonNilTriples, Rank.triple] using ih

theorem bubble_perm {α : Type} (less : α → α → Bool) (x : α) (l : List α) :
    (bubble less x l).Perm (x :: l) := by
  induction l with
  | nil => exact List.Perm.refl _
  | cons y l ih =>
    unfold bubble
    split
    · exact (List.Perm.cons y ih).trans (List.Perm.swap x y l)
    · exact List.Perm.refl _

theorem foldl_bubble_perm {α : Type} (less : α → α → Bool) (data : List α) :
    ∀ sorted : List α,
      (data.foldl (fun sorted x => bubble less x sorted) sorted).Perm (sorted ++ data) := by
  induction data with
  | nil => intro sorted; simp
  | cons x data ih =>
    intro sorted
    simp only [List.foldl_cons]
    refine (ih _).trans ?_
    refine ((bubble_perm less x sorted).append_right data).trans ?_
    have hmid : (sorted ++ x :: data).Perm (x :: (sorted ++ data)) := List.perm_middle
    simpa using hmid.symm

theorem sortSlice_perm {α : Type} (less : α → α → Bool) (data : List α) :
    (sortSlice less data).Perm data := by
  unfold sortSlice
  refine (List.reverse_perm _).trans ?_
  simpa using foldl_bubble_perm less data []

theorem bubble_head {α : Type} (less : α → α → Bool) (x : α) (l : List α) :
    ∀ z ∈ (bubble less x l).head?, z = x ∨ z ∈ l.head? := by
  intro z hz
  cases l with
  | nil => left; simpa [bubble] using hz.symm
  | cons y l =>
    unfold bubble at hz
    split at hz
    · right; simpa using hz
    · left; simpa using hz.symm

theorem bubble_chain {α : Type} (less : α → α → Bool)
    (hasym : ∀ x y, less x y = true → less y x = false) (x : α) (l : List α)
    (h : List.Chain' (fun b a => less b a = false) l) :
    List.Chain' (fun b a => less b a = false) (bubble less x l) := by
  induction l with
  | nil => simp [bubble]
  | cons y l ih =>
    unfold bubble
    by_cases hxy : less x y = true
    · simp only [hxy, if_true]
      refine List.Chain'.cons' (ih h.tail) ?_
      intro z hz
      rcases bubble_head less x l z hz with rfl | hz
      · exact hasym _ _ hxy
      · exact h.rel_head? hz
    · simp only [hxy]
      exact List.Chain'.cons (by simpa using hxy) h

theorem foldl_bubble_chain {α : Type} (less : α → α → Bool)
    (hasym : ∀ x y, less x y = true → less y x = false) (data : List α) :
    ∀ sorted : List α, List.Chain' (fun b a => less b a = false) sorted →
      List.Chain' (fun b a => less b a = false)
        (data.foldl (fun sorted x => bubble less x sorted) sorted) := by
  induction data with
  | nil => intro sorted h; simpa using h
  | cons x data ih =>
    intro sorted h
    simp only [List.foldl_cons]
    exact ih _ (bubble_chain less hasym x sorted h)

theorem sortSlice_chain {α : Type} (less : α → α → Bool)
    (hasym : ∀ x y, less x y = true → less y x = false) (data : List α) :
    List.Chain' (fun a b => less b a = false) (sortSlice less data) := by
  unfold sortSlice
  rw [List.chain'_reverse]
  exact foldl_bubble_chain less hasym data [] List.chain'_nil

theorem rankLess_asymm (x y : Rank) (h : rankLess x y = true) : rankLess y x = false := by
  unfold rankLess at *
  by_cases hp : x.Points = y.Points
  · simp only [hp, if_true, decide_eq_true_eq] at h
    simp only [hp, if_true, decide_eq_false_iff_not]
    omega
  · simp only [hp, if_false, decide_eq_true_eq] at h
    have hp' : ¬ y.Points = x.Points := fun e => hp e.symm
    simp only [hp', if_false, decide_eq_false_iff_not]
    omega

theorem rankedBefore_iff (a b : Rank) : rankedBefore a b ↔ rankLess b a = false := by
  unfold rankedBefore rankLess
  by_cases hp : b.Points = a.Points
  · simp only [hp, if_true, decide_eq_false_iff_not]
    constructor
    · rintro (h | h) <;> omega
    · intro h; exact Or.inr ⟨trivial, by omega⟩
  · simp only [hp, if_false, decide_eq_false_iff_not]
    constructor
    · rintro (h | h) <;> omega
    · intro h; left; omega

/-! ## RemoveValue -/

theorem RemoveValue_loop (value : String) (s acc : List String) :
    s.foldl (fun newS v => if v ≠ value then newS ++ [v] else newS) acc
      = acc ++ s.filter (fun v => decide (v ≠ value)) := by
  induction s generalizing acc with
  | nil => simp
  | cons x s ih =>
    simp only [List.foldl_cons, List.filter_cons]
    by_cases hx : x ≠ value
    · rw [if_pos hx, ih]
      simp [hx]
    · rw [if_neg hx, ih]
      simp [hx]

/-! ## The frame of the placement phase -/

theorem attach_length_le_two (ed : EventsData) (eventName : String) (event : Event)
    (effectName : String) (effect : Option Effect) (h : atMostTwoEffects ed)
    (hfit : fitsMultiplier event.Effects.length = true ∨ fitsAdditive event.Effects.length = true) :
    atMostTwoEffects (attach ed eventName event effectName effect) := by
  intro name ev hev
  rw [attach_get?] at hev
  split at hev
  · cases hev
    simp only [Event.AddEffect, List.length_append, List.length_singleton]
    rcases hfit with hf | hf
    · simp [fitsMultiplier] at hf
      simp [hf]
    · simp [fitsAdditive] at hf
      omega
  · exact h name ev hev

theorem StrMap.keys_set {α : Type} (m : StrMap α) (k : String) (v v0 : α)
    (h : StrMap.get? m k = some v0) : (StrMap.set m k v).map Prod.fst = m.map Prod.fst := by
  induction m with
  | nil => simp [StrMap.get?] at h
  | cons kv m ih =>
    obtain ⟨k0, w⟩ := kv
    by_cases hk : k0 = k
    · simp [StrMap.set, hk]
    · simp only [StrMap.get?, hk, if_false] at h
      simp [StrMap.set, hk, ih h]

theorem attach_frameOf (ed0 ed : EventsData) (eventName : String) (event : Event)
    (effectName : String) (effect : Option Effect) (h : frameOf ed0 ed)
    (hget : ed.Map.get? eventName = some event) (hen : event.Enabled = true) :
    frameOf ed0 (attach ed eventName event effectName effect) := by
  obtain ⟨hk, hm, hev⟩ := h
  refine ⟨hk, ?_, ?_⟩
  · rw [← hm]
    exact StrMap.keys_set _ _ _ _ hget
  · intro name event0 h0
    obtain ⟨ev, hg, he, hoff⟩ := hev name event0 h0
    rw [attach_get?]
    by_cases hn : name = eventName
    · subst hn
      rw [hget] at hg
      cases hg
      refine ⟨event.AddEffect effect, by simp, he, ?_⟩
      intro hfalse
      rw [← he, hen] at hfalse
      cases hfalse
    · exact ⟨ev, by simp [hn, hg], he, hoff⟩

/-- A property of the calendar that every attachment to an enabled event
preserves holds when the placement phase returns. -/
theorem placeEffects_invariant_enabled (Inv : EventsData → Prop) (p : Plan)
    (hstep : ∀ n ed eventName event, Inv ed → ed.Map.get? eventName = some event →
        event.Enabled = true → Inv (attach ed eventName event n (p.effectsToApply.get? n)))
    (ds : List Nat) (ed ed1 : EventsData)
    (h : placeEffects p ds ed = .done ed1) (hinv : Inv ed) : Inv ed1 := by
  unfold placeEffects at h
  split at h
  · cases h
  · cases h
  · rename_i edm dsm hm
    have h1 := placeAll_invariant Inv fitsMultiplier p _
      (fun n _ ed eventName event hi hg hen _ => hstep n ed eventName event hi hg hen)
      _ _ _ hm hinv
    split at h
    · cases h
    · cases h
    · rename_i eda dsa ha
      cases h
      exact placeAll_invariant Inv fitsAdditive p _
        (fun n _ ed eventName event hi hg hen _ => hstep n ed eventName event hi hg hen)
        _ _ _ ha h1

/-- The effect lists of a finished placement phase on a calendar without effects,
when every multiplicative name stands for a multiplicative effect and every
additive name for an additive one. -/
theorem placeEffects_shapes (p : Plan) (ds : List Nat) (ed ed1 : EventsData)
    (hmult : ∀ n ∈ p.multiplierEffectsNames,
      ∃ e, p.effectsToApply.get? n = some e ∧ e.isMultiplier)
    (hadd : ∀ n ∈ p.additiveEffectsNames,
      ∃ e, p.effectsToApply.get? n = some e ∧ e.isAdditive)
    (hstart : ∀ name event, ed.Map.get? name = some event → event.Effects = [])
    (h : placeEffects p ds ed = .done ed1) :
    ∀ name event, ed1.Map.get? name = some event → effectsShape event.Effects := by
  unfold placeEffects at h
  split at h
  · cases h
  · cases h
  · rename_i edm dsm hm
    have h1 : ∀ name event, edm.Map.get? name = some event → multiplierShape event.Effects := by
      refine placeAll_invariant
        (fun ed => ∀ name event, ed.Map.get? name = some event → multiplierShape event.Effects)
        fitsMultiplier p _ ?_ _ _ _ hm
        (fun name event hg => Or.inl (hstart name event hg))
      intro n hn ed0 eventName event hinv hget _ hfit name ev hev
      rw [attach_get?] at hev
      split at hev
      · cases hev
        obtain ⟨e, he, hmul⟩ := hmult n hn
        have hlen : event.Effects = [] := by
          simpa [fitsMultiplier] using hfit
        exact Or.inr ⟨e, by simp [Event.AddEffect, hlen, he], hmul⟩
      · exact hinv name ev hev
    split at h
    · cases h
    · cases h
    · rename_i eda dsa ha
      cases h
      refine placeAll_invariant
        (fun ed => ∀ name event, ed.Map.get? name = some event → effectsShape event.Effects)
        fitsAdditive p _ ?_ _ _ _ ha ?_
      · intro n hn ed0 eventName event hinv hget _ hfit name ev hev
        rw [attach_get?] at hev
        split at hev
        · cases hev
          obtain ⟨e, he, hadd⟩ := hadd n hn
          have hlen : event.Effects.length < 2 := by
            simpa [fitsAdditive] using hfit
          rcases hinv eventName event hget with
            (h0 | ⟨m, hm, hmm⟩ | ⟨a, ha, haa⟩ | ⟨a, b, hab, _, _⟩) | ⟨m, a, hma, _, _⟩
          · exact Or.inl (Or.inr (Or.inr (Or.inl
              ⟨e, by simp [Event.AddEffect, h0, he], hadd⟩)))
          · exact Or.inr ⟨m, e, by simp [Event.AddEffect, hm, he], hmm, hadd⟩
          · exact Or.inl (Or.inr (Or.inr (Or.inr
              ⟨a, e, by simp [Event.AddEffect, ha, he], haa, hadd⟩)))
          · rw [hab] at hlen; simp at hlen
          · rw [hma] at hlen; simp at hlen
        · exact hinv name ev hev
      · intro name event hg
        rcases h1 name event hg with h0 | ⟨m, hm, hmm⟩
        · exact Or.inl (Or.inl h0)
        · exact Or.inl (Or.inr (Or.inl ⟨m, hm, hmm⟩))

theorem isMultiplier_not_isAdditive (m a : Effect) (hm : m.isMultiplier) (ha : a.isAdditive) :
    m ≠ a := by
  intro h
  subst h
  unfold Effect.isMultiplier at hm
  unfold Effect.isAdditive at ha
  rw [hm] at ha
  rcases ha with ha | ha <;> exact absurd ha (by decide)

/-- The rebalancing loop does not return once it is entered. -/
theorem rebalance_entered (E : Int) (k : Nat) (ds : List Nat) (names : List String)
    (amounts : StrMap Int) (res : List String × StrMap Int × List Nat) :
    rebalance E (E + 1 + k) ds names amounts ≠ .done res := by
  intro h
  have := (rebalance_done _ _ _ _ _ _ h).1
  omega

/-- The sizing pass reads the draws it needs and leaves the rest. -/
theorem sizeEffects_append (E : Int) (tail : List Nat) :
    ∀ (effects : List EffectPresence) (ds : List Nat) (p : Plan) (p1 : Plan) (rest : List Nat),
      sizeEffects E effects ds p = .done (p1, rest) →
      sizeEffects E effects (ds ++ tail) p = .done (p1, rest ++ tail) := by
  intro effects
  induction effects with
  | nil =>
    intro ds p p1 rest h
    simp only [sizeEffects, Run.done.injEq, Prod.mk.injEq] at h ⊢
    exact ⟨h.1, by rw [h.2]⟩
  | cons q effects ih =>
    intro ds p p1 rest h
    cases ds with
    | nil => simp [sizeEffects] at h
    | cons d ds1 =>
      simp only [sizeEffects, List.cons_append] at h ⊢
      by_cases hF : Float64 d < q.Possible
      · simp only [hF, if_true] at h ⊢
        by_cases hz : scaleInt q.Amount.Max E - scaleInt q.Amount.Min E ≤ 0
        · simp [hz] at h
        · simp only [hz, if_false] at h ⊢
          cases ds1 with
          | nil => simp at h
          | cons d2 ds2 =>
            simp only [List.cons_append] at h ⊢
            exact ih _ _ _ _ h
      · simp only [hF, if_false] at h ⊢
        exact ih _ _ _ _ h

theorem record_effectsAmountToApply (p : Plan) (effect : Effect) (v : Int) :
    (p.record effect v).effectsAmountToApply
      = p.effectsAmountToApply.set effect.Name (p.effectsAmountToApply.getI effect.Name + v) := by
  unfold Plan.record
  split
  · rfl
  · split <;> rfl

theorem effectTargetSum_eq_sum (amounts : StrMap Int) (names : List String) :
    effectTargetSum amounts names = names.toFinset.sum (fun n => amounts.getI n) := by
  unfold effectTargetSum targetSum
  rw [← List.sum_toFinset _ (List.nodup_dedup names)]
  congr 1
  ext x
  simp

theorem effectTargetSum_set_fresh (amounts : StrMap Int) (names : List String) (k : String)
    (v : Int) (h : k ∉ names) :
    effectTargetSum (amounts.set k v) names = effectTargetSum amounts names := by
  unfold effectTargetSum
  exact targetSum_set_fresh _ _ _ _ (fun hk => h (List.mem_dedup.mp hk))

theorem effectTargetSum_record (amounts : StrMap Int) (names : List String) (k : String)
    (v : Int) (h : k ∉ names → amounts.getI k = 0) :
    effectTargetSum (amounts.set k (amounts.getI k + v)) (names ++ [k])
      = effectTargetSum amounts names + v := by
  rw [effectTargetSum_eq_sum, effectTargetSum_eq_sum]
  have hset : (names ++ [k]).toFinset = insert k names.toFinset := by
    ext x; simp [or_comm]
  rw [hset]
  by_cases hk : k ∈ names
  · have hk' : k ∈ names.toFinset := List.mem_toFinset.mpr hk
    rw [Finset.insert_eq_of_mem hk']
    rw [← Finset.add_sum_erase _ _ hk', ← Finset.add_sum_erase _ (fun n => amounts.getI n) hk']
    rw [StrMap.getI_set_same]
    have : (names.toFinset.erase k).sum
          (fun n => (amounts.set k (amounts.getI k + v)).getI n)
        = (names.toFinset.erase k).sum (fun n => amounts.getI n) := by
      apply Finset.sum_congr rfl
      intro x hx
      exact StrMap.getI_set_other _ _ _ _ (Finset.ne_of_mem_erase hx)
    rw [this]
    ring
  · have hk' : k ∉ names.toFinset := fun hm => hk (List.mem_toFinset.mp hm)
    rw [Finset.sum_insert hk', StrMap.getI_set_same, h hk]
    have : names.toFinset.sum (fun n => (amounts.set k (0 + v)).getI n)
        = names.toFinset.sum (fun n => amounts.getI n) := by
      apply Finset.sum_congr rfl
      intro x hx
      apply StrMap.getI_set_other
      intro hxk
      exact hk' (hxk ▸ hx)
    rw [this]
    ring

theorem record_effectSumInv (all : List EffectPresence) (p : Plan) (q : EffectPresence) (v : Int)
    (hkinv : KeyInv all p) (hinv : EffectSumInv p) (hq : q ∈ all) (hcons : KeysConsistent all) :
    EffectSumInv (p.record q.Effect v) := by
  have hkey : ∀ e, p.effectsToApply.get? q.Effect.Name = some e → e.Key = q.Effect.Key := by
    intro e he
    obtain ⟨hn, q0, hq0, rfl⟩ := hkinv.src _ _ he
    exact hcons q0 hq0 q hq hn
  have hmult : q.Effect.Name ∈ p.multiplierEffectsNames → q.Effect.Key = "*" := by
    intro h
    obtain ⟨e, he, hm⟩ := hkinv.mult _ h
    exact (hkey e he).symm.trans hm
  have hadd : q.Effect.Name ∈ p.additiveEffectsNames →
      q.Effect.Key = "+" ∨ q.Effect.Key = "-" := by
    intro h
    obtain ⟨e, he, ha⟩ := hkinv.add _ h
    unfold Effect.isAdditive at ha
    rw [hkey e he] at ha
    exact ha
  have hzero_m : q.Effect.Key = "*" → q.Effect.Name ∉ p.multiplierEffectsNames →
      p.effectsAmountToApply.getI q.Effect.Name = 0 := by
    intro hk hn
    cases he : p.effectsToApply.get? q.Effect.Name with
    | none => simp [StrMap.getI, hinv.recorded _ he]
    | some e =>
      exact absurd ((hinv.classed _ e he).1 ((hkey e he).trans hk)) hn
  have hzero_a : (q.Effect.Key = "+" ∨ q.Effect.Key = "-") →
      q.Effect.Name ∉ p.additiveEffectsNames →
      p.effectsAmountToApply.getI q.Effect.Name = 0 := by
    intro hk hn
    cases he : p.effectsToApply.get? q.Effect.Name with
    | none => simp [StrMap.getI, hinv.recorded _ he]
    | some e =>
      have : e.isAdditive := by
        unfold Effect.isAdditive
        rw [hkey e he]
        exact hk
      exact absurd ((hinv.classed _ e he).2 this) hn
  have hrec : ∀ n, (p.record q.Effect v).effectsToApply.get? n = none →
      (p.record q.Effect v).effectsAmountToApply.get? n = none := by
    intro n hn
    rw [record_effectsToApply] at hn
    rw [record_effectsAmountToApply]
    by_cases hnq : n = q.Effect.Name
    · subst hnq
      rw [StrMap.get?_set_same] at hn
      cases hn
    · rw [StrMap.get?_set_other _ _ _ _ hnq] at hn
      rw [StrMap.get?_set_other _ _ _ _ hnq]
      exact hinv.recorded _ hn
  have hcls : ∀ n e, (p.record q.Effect v).effectsToApply.get? n = some e →
      (e.isMultiplier → n ∈ (p.record q.Effect v).multiplierEffectsNames) ∧
      (e.isAdditive → n ∈ (p.record q.Effect v).additiveEffectsNames) := by
    intro n e he
    rw [record_effectsToApply] at he
    rw [record_multiplierEffectsNames, record_additiveEffectsNames]
    by_cases hnq : n = q.Effect.Name
    · subst hnq
      rw [StrMap.get?_set_same] at he
      cases he
      constructor
      · intro hm
        have hm' : q.Effect.Key = "*" := hm
        simp [hm']
      · intro ha
        have ha' : q.Effect.Key = "+" ∨ q.Effect.Key = "-" := ha
        have hne : ¬ q.Effect.Key = "*" := by
          intro hk
          rw [hk] at ha'
          rcases ha' with h | h <;> exact absurd h (by decide)
        simp [hne, ha']
    · rw [StrMap.get?_set_other _ _ _ _ hnq] at he
      obtain ⟨h1, h2⟩ := hinv.classed _ e he
      constructor
      · intro hm
        split
        · exact List.mem_append_left _ (h1 hm)
        · exact h1 hm
      · intro ha
        split
        · exact h2 ha
        · split
          · exact List.mem_append_left _ (h2 ha)
          · exact h2 ha
  refine ⟨hrec, hcls, ?_, ?_⟩
  · rw [record_effectsAmountToApply, record_multiplierEffectsNames]
    unfold Plan.record
    by_cases hk : q.Effect.Key = "*"
    · simp only [hk, if_true]
      rw [effectTargetSum_record _ _ _ _ (hzero_m hk), hinv.mult_sum]
    · simp only [hk, if_false]
      have hn : q.Effect.Name ∉ p.multiplierEffectsNames := fun h => hk (hmult h)
      rw [effectTargetSum_set_fresh _ _ _ _ hn, hinv.mult_sum]
      split <;> rfl
  · rw [record_effectsAmountToApply, record_additiveEffectsNames]
    unfold Plan.record
    by_cases hk : q.Effect.Key = "*"
    · simp only [hk, if_true]
      have hn : q.Effect.Name ∉ p.additiveEffectsNames := by
        intro h
        have := hadd h
        rw [hk] at this
        rcases this with h | h <;> exact absurd h (by decide)
      rw [effectTargetSum_set_fresh _ _ _ _ hn, hinv.add_sum]
    · by_cases hk2 : q.Effect.Key = "+" ∨ q.Effect.Key = "-"
      · simp only [hk, if_false, hk2, if_true]
        rw [effectTargetSum_record _ _ _ _ (hzero_a hk2), hinv.add_sum]
      · simp only [hk, if_false, hk2]
        have hn : q.Effect.Name ∉ p.additiveEffectsNames := fun h => hk2 (hadd h)
        rw [effectTargetSum_set_fresh _ _ _ _ hn, hinv.add_sum]

theorem sizeEffects_effectSumInv (E : Int) (all : List EffectPresence)
    (hcons : KeysConsistent all) :
    ∀ (effects : List EffectPresence) (ds : List Nat) (p : Plan) (res : Plan × List Nat),
      sizeEffects E effects ds p = .done res → KeyInv all p → EffectSumInv p →
      (∀ q ∈ effects, q ∈ all) → EffectSumInv res.1 := by
  intro effects
  induction effects with
  | nil =>
    intro ds p res h _ hinv _
    unfold sizeEffects at h
    cases h
    exact hinv
  | cons q effects ih =>
    intro ds p res h hkinv hinv hsub
    have hsub' : ∀ q1 ∈ effects, q1 ∈ all := fun q1 h1 => hsub q1 (List.mem_cons_of_mem _ h1)
    cases ds with
    | nil => simp [sizeEffects] at h
    | cons d ds1 =>
      simp only [sizeEffects] at h
      by_cases hF : Float64 d < q.Possible
      · simp only [hF, if_true] at h
        by_cases hz : scaleInt q.Amount.Max E - scaleInt q.Amount.Min E ≤ 0
        · simp [hz] at h
        · simp only [hz, if_false] at h
          cases ds1 with
          | nil => simp at h
          | cons d2 ds2 =>
            simp only at h
            exact ih _ _ _ h
              (record_keyInv all p q _ hkinv (hsub q (List.mem_cons_self _ _)) hcons)
              (record_effectSumInv all p q _ hkinv hinv (hsub q (List.mem_cons_self _ _)) hcons)
              hsub'
      · simp only [hF, if_false] at h
        exact ih _ _ _ h hkinv hinv hsub'

/-- The sizing pass draws no negative target when no amount interval starts below
zero and `E` is not negative. -/
theorem sizeEffects_nonneg (E : Int) (hE : 0 ≤ E) :
    ∀ (effects : List EffectPresence) (ds : List Nat) (p : Plan) (res : Plan × List Nat),
      sizeEffects E effects ds p = .done res →
      (∀ q ∈ effects, 0 ≤ q.Amount.Min) →
      (∀ n, 0 ≤ p.effectsAmountToApply.getI n) →
      ∀ n, 0 ≤ res.1.effectsAmountToApply.getI n := by
  intro effects
  induction effects with
  | nil =>
    intro ds p res h _ hp
    unfold sizeEffects at h
    cases h
    exact hp
  | cons q effects ih =>
    intro ds p res h hq hp
    have hq' : ∀ q1 ∈ effects, 0 ≤ q1.Amount.Min := fun q1 h1 => hq q1 (List.mem_cons_of_mem _ h1)
    cases ds with
    | nil => simp [sizeEffects] at h
    | cons d ds1 =>
      simp only [sizeEffects] at h
      by_cases hF : Float64 d < q.Possible
      · simp only [hF, if_true] at h
        by_cases hz : scaleInt q.Amount.Max E - scaleInt q.Amount.Min E ≤ 0
        · simp [hz] at h
        · simp only [hz, if_false] at h
          cases ds1 with
          | nil => simp at h
          | cons d2 ds2 =>
            simp only at h
            refine ih _ _ _ h hq' ?_
            intro n
            rw [record_effectsAmountToApply]
            have hmin : 0 ≤ scaleInt q.Amount.Min E :=
              scaleInt_nonneg _ _ (hq q (List.mem_cons_self _ _)) hE
            have hdraw := Intn_nonneg
              (scaleInt q.Amount.Max E - scaleInt q.Amount.Min E) d2 (by omega)
            by_cases hn : n = q.Effect.Name
            · subst hn
              rw [StrMap.getI_set_same]
              have := hp q.Effect.Name
              omega
            · rw [StrMap.getI_set_other _ _ _ _ hn]
              exact hp n
      · simp only [hF, if_false] at h
        exact ih _ _ _ h hq' hp

/-! ## The candidate pool -/

theorem placeLoop_step (fits : Nat → Bool) (effectName : String) (effect : Option Effect)
    (target : Int) (d : Nat) (ds : List Nat) (i : Int) (ed : EventsData) :
    placeLoop fits effectName effect target (d :: ds) i ed =
      if i < target then
        match placeIter fits effectName effect d i ed with
        | .done (i1, ed1) => placeLoop fits effectName effect target ds i1 ed1
        | .crash => .crash
        | .starved => .starved
      else .done (ed, d :: ds) := by
  rw [placeLoop]
  unfold placeIter
  by_cases hlt : i < target
  · simp only [hlt, if_true]
    by_cases hk : ed.Keys.length = 0
    · simp [hk]
    · simp only [hk, if_false]
      cases hkey : ed.Keys[(Intn ed.Keys.length d).toNat]? with
      | none => rfl
      | some eventName =>
        simp only []
        cases hev : ed.Map.get? eventName with
        | none => rfl
        | some event =>
          simp only []
          by_cases hc : (event.Enabled && fits event.Effects.length) = true
          · simp [hc]
          · simp [hc]
  · simp [hlt]

theorem sum_map_update (f g : String → Nat) (a : String) :
    ∀ (l : List String), l.Nodup → a ∈ l → (∀ x ∈ l, x ≠ a → g x = f x) → g a + 1 = f a →
      (l.map g).sum + 1 = (l.map f).sum := by
  intro l
  induction l with
  | nil => intro _ h; simp at h
  | cons x l ih =>
    intro hnd hmem hsame ha
    rw [List.nodup_cons] at hnd
    simp only [List.map_cons, List.sum_cons]
    by_cases hx : x = a
    · subst hx
      have hl : l.map g = l.map f := by
        apply List.map_congr_left
        intro y hy
        exact hsame y (List.mem_cons_of_mem _ hy) (fun e => hnd.1 (e ▸ hy))
      rw [hl]
      omega
    · have hmem' : a ∈ l := by
        rcases List.mem_cons.mp hmem with h | h
        · exact absurd h.symm hx
        · exact h
      have := ih hnd.2 hmem' (fun y hy hya => hsame y (List.mem_cons_of_mem _ hy) hya) ha
      rw [hsame x (List.mem_cons_self _ _) hx]
      omega

theorem capacity_attach (w : Event → Nat) (ed : EventsData) (eventName : String)
    (event : Event) (effectName : String) (effect : Option Effect)
    (hkey : eventName ∈ ed.Keys) (hget : ed.Map.get? eventName = some event)
    (hw : w (event.AddEffect effect) + 1 = w event) :
    capacity w (attach ed eventName event effectName effect) + 1 = capacity w ed := by
  unfold capacity
  have hkeys : (attach ed eventName event effectName effect).Keys = ed.Keys := rfl
  rw [hkeys]
  apply sum_map_update _ _ eventName _ (List.nodup_dedup _) (List.mem_dedup.mpr hkey)
  · intro x _ hx
    rw [attach_get?]
    simp [hx]
  · rw [attach_get?]
    simp [hget, hw]

theorem exists_pos_of_sum_pos (f : String → Nat) :
    ∀ (l : List String), 0 < (l.map f).sum → ∃ x ∈ l, 0 < f x := by
  intro l
  induction l with
  | nil => intro h; simp at h
  | cons x l ih =>
    intro h
    simp only [List.map_cons, List.sum_cons] at h
    by_cases hx : 0 < f x
    · exact ⟨x, List.mem_cons_self _ _, hx⟩
    · obtain ⟨y, hy, hfy⟩ := ih (by omega)
      exact ⟨y, List.mem_cons_of_mem _ hy, hfy⟩

theorem candidatePool_ne_nil (w : Event → Nat) (fits : Nat → Bool) (ed : EventsData)
    (hw : ∀ e, 0 < w e → (e.Enabled && fits e.Effects.length) = true)
    (h : 0 < capacity w ed) : candidatePool fits ed ≠ [] := by
  obtain ⟨k, hk, hpos⟩ := exists_pos_of_sum_pos _ _ h
  have hmem : k ∈ candidatePool fits ed := by
    unfold candidatePool
    rw [List.mem_filter]
    refine ⟨hk, ?_⟩
    cases hg : ed.Map.get? k with
    | none => simp [hg] at hpos
    | some event =>
      simp only [hg] at hpos
      exact hw event hpos
  intro hnil
  rw [hnil] at hmem
  cases hmem

theorem mem_of_getElem? {α : Type} (l : List α) (idx : Nat) (a : α) (h : l[idx]? = some a) :
    a ∈ l := by
  rw [List.getElem?_eq_some] at h
  obtain ⟨hlt, rfl⟩ := h
  exact List.getElem_mem hlt

/-- While the units still to place fit the capacity, every step of the inner
placement loop with units left finds a candidate, and the loop returns with
room for the units of the later effects. -/
theorem placeLoopHeads_pool (w : Event → Nat) (fits : Nat → Bool) (effectName : String)
    (effect : Option Effect) (target : Int) (B : Int)
    (hstep : ∀ e, e.Enabled = true → fits e.Effects.length = true →
      w (e.AddEffect effect) + 1 = w e)
    (hw : ∀ e, 0 < w e → (e.Enabled && fits e.Effects.length) = true) :
    ∀ (ds : List Nat) (i : Int) (ed : EventsData),
      (target - i) + B ≤ capacity w ed → 0 ≤ B → i ≤ target →
      (∀ h ∈ placeLoopHeads fits effectName effect target ds i ed,
        h.1 < target → candidatePool fits h.2 ≠ []) ∧
      (∀ ed1 ds1, placeLoop fits effectName effect target ds i ed = .done (ed1, ds1) →
        B ≤ capacity w ed1) := by
  intro ds
  induction ds with
  | nil =>
    intro i ed hcap hB hi
    constructor
    · intro h hh hlt
      simp only [placeLoopHeads, List.mem_singleton] at hh
      subst hh
      exact candidatePool_ne_nil w fits ed hw (by simp only at hlt; omega)
    · intro ed1 ds1 h
      unfold placeLoop at h
      split at h
      · split at h <;> cases h
      · cases h; omega
  | cons d ds ih =>
    intro i ed hcap hB hi
    have hhead : i < target → candidatePool fits ed ≠ [] := fun hlt =>
      candidatePool_ne_nil w fits ed hw (by omega)
    by_cases hlt : i < target
    · -- the body runs
      have hiter : ∀ i1 ed1, placeIter fits effectName effect d i ed = .done (i1, ed1) →
          (target - i1) + B ≤ capacity w ed1 ∧ i1 ≤ target := by
        intro i1 ed1 hit
        unfold placeIter at hit
        split at hit
        · cases hit
        · split at hit
          · cases hit
          · rename_i eventName hkey
            split at hit
            · cases hit
            · rename_i event hget
              split at hit
              · rename_i hc
                simp only [Bool.and_eq_true] at hc
                cases hit
                have := capacity_attach w ed eventName event effectName effect
                  (mem_of_getElem? _ _ _ hkey) hget (hstep event hc.1 hc.2)
                constructor <;> omega
              · cases hit
                exact ⟨hcap, hi⟩
      constructor
      · intro h hh hlth
        simp only [placeLoopHeads, hlt, if_true, List.mem_cons] at hh
        rcases hh with hh | hh
        · subst hh; exact hhead hlt
        · cases hit : placeIter fits effectName effect d i ed with
          | done r =>
            obtain ⟨i1, ed1⟩ := r
            rw [hit] at hh
            obtain ⟨hc1, hi1⟩ := hiter i1 ed1 hit
            exact (ih i1 ed1 hc1 hB hi1).1 h hh hlth
          | crash => rw [hit] at hh; simp at hh
          | starved => rw [hit] at hh; simp at hh
      · intro ed1 ds1 h
        rw [placeLoop_step] at h
        simp only [hlt, if_true] at h
        cases hit : placeIter fits effectName effect d i ed with
        | done r =>
          obtain ⟨i1, ed2⟩ := r
          rw [hit] at h
          obtain ⟨hc1, hi1⟩ := hiter i1 ed2 hit
          exact (ih i1 ed2 hc1 hB hi1).2 ed1 ds1 h
        | crash => rw [hit] at h; cases h
        | starved => rw [hit] at h; cases h
    · constructor
      · intro h hh hlth
        simp only [placeLoopHeads, hlt, if_false, List.mem_cons, List.not_mem_nil, or_false] at hh
        subst hh
        exact absurd hlth hlt
      · intro ed1 ds1 h
        rw [placeLoop_step] at h
        simp only [hlt, if_false] at h
        cases h
        omega

theorem targetSum_cons (amounts : StrMap Int) (n : String) (names : List String) :
    targetSum amounts (n :: names) = amounts.getI n + targetSum amounts names := by
  simp [targetSum]

theorem targetSum_nonneg (amounts : StrMap Int) (names : List String)
    (h : ∀ n, 0 ≤ amounts.getI n) : 0 ≤ targetSum amounts names := by
  induction names with
  | nil => simp [targetSum]
  | cons n names ih =>
    rw [targetSum_cons]
    have := h n
    omega

/-- While the targets of a list of effect names fit the capacity, every step of
the outer placement loop with units left finds a candidate. -/
theorem placeAllHeads_pool (w : Event → Nat) (fits : Nat → Bool) (p : Plan)
    (hstep : ∀ (effect : Option Effect) e, e.Enabled = true → fits e.Effects.length = true →
      w (e.AddEffect effect) + 1 = w e)
    (hw : ∀ e, 0 < w e → (e.Enabled && fits e.Effects.length) = true)
    (hpos : ∀ n, 0 ≤ p.effectsAmountToApply.getI n) :
    ∀ (names : List String) (ds : List Nat) (ed : EventsData),
      targetSum p.effectsAmountToApply names ≤ capacity w ed →
      ∀ h ∈ placeAllHeads fits p names ds ed,
        h.2.1 < p.effectsAmountToApply.getI h.1 → candidatePool fits h.2.2 ≠ [] := by
  intro names
  induction names with
  | nil => intro ds ed _ h hh; simp [placeAllHeads] at hh
  | cons n names ih =>
    intro ds ed hcap h hh hlt
    rw [targetSum_cons] at hcap
    obtain ⟨hheads, hdone⟩ := placeLoopHeads_pool w fits n (p.effectsToApply.get? n)
      (p.effectsAmountToApply.getI n) (targetSum p.effectsAmountToApply names)
      (hstep _) hw ds 0 ed (by omega) (targetSum_nonneg _ _ hpos) (hpos n)
    simp only [placeAllHeads, List.mem_append, List.mem_map] at hh
    rcases hh with ⟨h0, hh0, rfl⟩ | hh
    · exact hheads h0 hh0 hlt
    · cases hl : placeLoop fits n (p.effectsToApply.get? n) (p.effectsAmountToApply.getI n)
          ds 0 ed with
      | done r =>
        obtain ⟨ed1, ds1⟩ := r
        rw [hl] at hh
        exact ih ds1 ed1 (hdone ed1 ds1 hl) h hh hlt
      | crash => rw [hl] at hh; simp at hh
      | starved => rw [hl] at hh; simp at hh

theorem multiplierRoom_step (effect : Option Effect) (e : Event) (he : e.Enabled = true)
    (hfit : fitsMultiplier e.Effects.length = true) :
    multiplierRoom (e.AddEffect effect) + 1 = multiplierRoom e := by
  simp [fitsMultiplier] at hfit
  simp [multiplierRoom, Event.AddEffect, he, fitsMultiplier, hfit]

theorem multiplierRoom_pos (e : Event) (h : 0 < multiplierRoom e) :
    (e.Enabled && fitsMultiplier e.Effects.length) = true := by
  unfold multiplierRoom at h
  split at h
  · assumption
  · omega

theorem additiveRoom_step (effect : Option Effect) (e : Event) (he : e.Enabled = true)
    (hfit : fitsAdditive e.Effects.length = true) :
    additiveRoom (e.AddEffect effect) + 1 = additiveRoom e := by
  simp [fitsAdditive] at hfit
  simp only [additiveRoom, Event.AddEffect, he, if_true, List.length_append,
    List.length_singleton]
  omega

theorem additiveRoom_pos (e : Event) (h : 0 < additiveRoom e) :
    (e.Enabled && fitsAdditive e.Effects.length) = true := by
  unfold additiveRoom at h
  split at h
  · rename_i he
    simp [he, fitsAdditive]
    omega
  · omega

theorem length_filter_le_sum (P : String → Bool) (f : String → Nat)
    (h : ∀ k, P k = true → 1 ≤ f k) :
    ∀ l : List String, (l.filter P).length ≤ (l.map f).sum := by
  intro l
  induction l with
  | nil => simp
  | cons x l ih =>
    simp only [List.filter_cons, List.map_cons, List.sum_cons]
    by_cases hx : P x = true
    · have := h x hx
      simp only [hx, if_true, List.length_cons]
      omega
    · simp only [hx]
      simp only [Bool.false_eq_true, if_false]
      omega

/-- On a calendar whose events hold at most one effect each, every enabled event
reachable through `Keys` has room for an additive unit. -/
theorem enabledKeys_le_additive (ed : EventsData)
    (h : ∀ name event, ed.Map.get? name = some event → event.Effects.length ≤ 1) :
    (enabledKeys ed).length ≤ capacity additiveRoom ed := by
  unfold enabledKeys capacity
  apply length_filter_le_sum
  intro k hk
  cases hg : ed.Map.get? k with
  | none => simp [hg] at hk
  | some event =>
    simp only [hg] at hk ⊢
    have := h k event hg
    have hen : event.Enabled = true := hk
    unfold additiveRoom
    rw [if_pos hen]
    omega

/-- On a calendar without effects every enabled event reachable through `Keys`
has room for a multiplicative unit. -/
theorem enabledKeys_le_multiplier (ed : EventsData)
    (h : ∀ name event, ed.Map.get? name = some event → event.Effects = []) :
    (enabledKeys ed).length ≤ capacity multiplierRoom ed := by
  unfold enabledKeys capacity
  apply length_filter_le_sum
  intro k hk
  cases hg : ed.Map.get? k with
  | none => simp [hg] at hk
  | some event =>
    simp only [hg] at hk ⊢
    simp [multiplierRoom, hk, fitsMultiplier, h k event hg]

theorem attach_enabledKeys (ed : EventsData) (eventName : String) (event : Event)
    (effectName : String) (effect : Option Effect)
    (hget : ed.Map.get? eventName = some event) :
    enabledKeys (attach ed eventName event effectName effect) = enabledKeys ed := by
  unfold enabledKeys
  have hkeys : (attach ed eventName event effectName effect).Keys = ed.Keys := rfl
  rw [hkeys]
  apply List.filter_congr
  intro k _
  rw [attach_get?]
  by_cases hk : k = eventName
  · subst hk
    simp [hget, Event.AddEffect]
  · simp [hk]

/-! ## The claims -/

theorem enabledCalendar_no_effects (n : Nat) :
    ∀ name event, (enabledCalendar n).Map.get? name = some event → event.Effects = [] := by
  intro name event h
  have hmem : ∀ (m : StrMap Event) (k : String) (v : Event), m.get? k = some v → (k, v) ∈ m := by
    intro m
    induction m with
    | nil => intro k v hv; simp [StrMap.get?] at hv
    | cons kv m ih =>
      intro k v hv
      obtain ⟨k0, v0⟩ := kv
      unfold StrMap.get? at hv
      split at hv
      · rename_i hk
        cases hv
        simp [hk]
      · exact List.mem_cons_of_mem _ (ih k v hv)
  have := hmem _ _ _ h
  simp only [enabledCalendar, List.mem_map, Prod.mk.injEq] at this
  obtain ⟨i, _, _, rfl⟩ := this
  rfl

/-- C1 (amended): on a calendar whose events all start without effects, and for
presences that give each effect name one class key, every event of the calendar
that a finished `AssignRandomEffects` leaves holds no effect, one multiplicative
effect, one or two additive effects, or one multiplicative effect followed by
one additive effect. -/
theorem AssignRandomEffects_effect_shapes (ed : EventsData) (effects : List EffectPresence)
    (draws : List Nat) (ed1 : EventsData)
    (hstart : ∀ name event, ed.Map.get? name = some event → event.Effects = [])
    (hcons : KeysConsistent effects)
    (h : AssignRandomEffects ed effects draws = .done ed1) :
    ∀ name event, ed1.Map.get? name = some event → effectsShape event.Effects := by
  unfold AssignRandomEffects at h
  split at h
  · cases h
  · cases h
  · rename_i p ds hp
    obtain ⟨hs, _, _⟩ := planEffects_done ed effects draws p ds hp
    have hk : KeyInv effects p := sizeEffects_keyInv _ effects hcons effects draws emptyPlan _ hs
      ⟨by simp [emptyPlan], by simp [emptyPlan], by simp [emptyPlan, StrMap.get?]⟩
      (fun q hq => hq)
    unfold placeEffects at h
    split at h
    · cases h
    · cases h
    · rename_i edm dsm hm
      have h1 : ∀ name event, edm.Map.get? name = some event → multiplierShape event.Effects := by
        refine placeAll_invariant
          (fun ed => ∀ name event, ed.Map.get? name = some event → multiplierShape event.Effects)
          fitsMultiplier p _ ?_ _ _ _ hm
          (fun name event hg => Or.inl (hstart name event hg))
        intro n hn ed0 eventName event hinv hget _ hfit name ev hev
        rw [attach_get?] at hev
        split at hev
        · cases hev
          obtain ⟨e, he, hmul⟩ := hk.mult n hn
          have hlen : event.Effects = [] := by
            simpa [fitsMultiplier] using hfit
          exact Or.inr ⟨e, by simp [Event.AddEffect, hlen, he], hmul⟩
        · exact hinv name ev hev
      split at h
      · cases h
      · cases h
      · rename_i eda dsa ha
        cases h
        refine placeAll_invariant
          (fun ed => ∀ name event, ed.Map.get? name = some event → effectsShape event.Effects)
          fitsAdditive p _ ?_ _ _ _ ha ?_
        · intro n hn ed0 eventName event hinv hget _ hfit name ev hev
          rw [attach_get?] at hev
          split at hev
          · cases hev
            obtain ⟨e, he, hadd⟩ := hk.add n hn
            have hlen : event.Effects.length < 2 := by
              simpa [fitsAdditive] using hfit
            rcases hinv eventName event hget with
              (h0 | ⟨m, hm, hmm⟩ | ⟨a, ha, haa⟩ | ⟨a, b, hab, _, _⟩) | ⟨m, a, hma, _, _⟩
            · exact Or.inl (Or.inr (Or.inr (Or.inl
                ⟨e, by simp [Event.AddEffect, h0, he], hadd⟩)))
            · exact Or.inr ⟨m, e, by simp [Event.AddEffect, hm, he], hmm, hadd⟩
            · exact Or.inl (Or.inr (Or.inr (Or.inr
                ⟨a, e, by simp [Event.AddEffect, ha, he], haa, hadd⟩)))
            · rw [hab] at hlen; simp at hlen
            · rw [hma] at hlen; simp at hlen
          · exact hinv name ev hev
        · intro name event hg
          rcases h1 name event hg with h0 | ⟨m, hm, hmm⟩
          · exact Or.inl (Or.inl h0)
          · exact Or.inl (Or.inr (Or.inl ⟨m, hm, hmm⟩))

/-- C1, witness: two enabled events without effects, a multiplicative and an
additive presence, all draws zero. -/
theorem AssignRandomEffects_effect_shapes_witness :
    (∀ name event, (enabledCalendar 2).Map.get? name = some event → event.Effects = []) ∧
    KeysConsistent mixedPresences ∧
    AssignRandomEffects (enabledCalendar 2) mixedPresences [0, 0, 0, 0, 0, 0]
      = .done mixedResult ∧
    (∀ name event, mixedResult.Map.get? name = some event → effectsShape event.Effects) :=
  ⟨enabledCalendar_no_effects 2, by decide, by decide!,
    AssignRandomEffects_effect_shapes (enabledCalendar 2) mixedPresences [0, 0, 0, 0, 0, 0]
      mixedResult (enabledCalendar_no_effects 2) (by decide) (by decide!)⟩

/-- C1, counterexample: on two enabled events without effects, with one
multiplicative and one additive presence and all draws zero, the call returns
and event "0" holds the multiplicative effect together with the additive one,
which is none of the documented effect lists. With two presences that give one
name two class keys, event "0" ends with two multiplicative effects. -/
theorem AssignRandomEffects_mixes_effect_classes :
    ((∀ name event, (enabledCalendar 2).Map.get? name = some event → event.Effects = []) ∧
      AssignRandomEffects (enabledCalendar 2) mixedPresences [0, 0, 0, 0, 0, 0]
        = .done mixedResult ∧
      mixedResult.Map.get? "0" = some ⟨"0", 1, true,
        [some ⟨"DoublePositivePoints", "*"⟩, some ⟨"AddOnePoint", "+"⟩]⟩ ∧
      ¬ documentedShape [some ⟨"DoublePositivePoints", "*"⟩, some ⟨"AddOnePoint", "+"⟩]) ∧
    (AssignRandomEffects (enabledCalendar 2) clashingPresences [0, 0, 0, 0, 0, 1, 0, 1]
        = .done clashingResult ∧
      clashingResult.Map.get? "0"
        = some ⟨"0", 1, true, [some ⟨"x", "*"⟩, some ⟨"x", "*"⟩]⟩ ∧
      ¬ effectsShape [some ⟨"x", "*"⟩, some ⟨"x", "*"⟩]) := by
  refine ⟨⟨enabledCalendar_no_effects 2, by decide!, by decide, ?_⟩, by decide!, by decide, ?_⟩
  · rintro (h | ⟨m, h, _⟩ | ⟨a, h, _⟩ | ⟨a, b, h, ha, _⟩)
    · cases h
    · cases h
    · cases h
    · cases h
      exact absurd ha (by decide)
  · rintro ((h | ⟨m, h, _⟩ | ⟨a, h, _⟩ | ⟨a, b, h, ha, _⟩) | ⟨m, a, h, _, ha⟩)
    · cases h
    · cases h
    · cases h
    · cases h
      exact absurd ha (by decide)
    · cases h
      exact absurd ha (by decide)

/-- C2, the code at the failing input: with `EnabledEventsNum = 0`, a first
presence of probability 1 and at least one draw, `AssignRandomEffects` panics in
the target-sizing draw `r.Intn(0)`, whatever the rest of the calendar, the amount
interval, the other presences and the draws are. -/
theorem AssignRandomEffects_no_enabled_events_crash (ed : EventsData) (effect : Effect)
    (amount : Interval) (rest : List EffectPresence) (d : Nat) (ds : List Nat) :
    AssignRandomEffects { ed with Stats := { ed.Stats with EnabledEventsNum := 0 } }
      (⟨effect, 1, amount⟩ :: rest) (d :: ds) = .crash := by
  apply AssignRandomEffects_crash_of_empty_range
  · exact le_refl _
  · simp [scaleInt_zero]

/-- C3, the code at the failing input: on 100 enabled events without effects and
the single multiplicative presence of probability 1.0 and amount [0.5, 0.5],
`AssignRandomEffects` panics in the target-sizing draw `r.Intn(50 - 50)` for
every non-empty sequence of draws. -/
theorem AssignRandomEffects_half_of_hundred_crash (d : Nat) (ds : List Nat) :
    AssignRandomEffects (enabledCalendar 100) [halfPresence] (d :: ds) = .crash := by
  apply AssignRandomEffects_crash_of_empty_range
  · exact le_refl _
  · simp [halfPresence]

/-- C4 (amended): let `lo = int(Min * float64(T))` and `hi = int(Max * float64(T))`
be the bounds the code computes for a valid range and `T < 2^53` templates, and
let `lo < hi`. Every call of `EnabledRandomSets` that returns returns nil and
leaves exactly `k` templates enabled with `lo <= k < hi`; the call returns on
every sequence of draws in which each template index keeps turning up; and each
of `lo`, `hi` lies between the floor and the ceiling of the exact product of the
`float64` bound with `T`. -/
theorem EnabledRandomSets_enables_count (ed : EventsData) (Sets : List Set)
    (percentage : Interval) (hmin : 0 ≤ percentage.Min) (hle : percentage.Min ≤ percentage.Max)
    (hmax : percentage.Max ≤ 1) (hT : Sets.length < 2 ^ 53)
    (hroom : scaleInt percentage.Min (Sets.length : Int)
      < scaleInt percentage.Max (Sets.length : Int)) :
    (∀ draws err ed1 Sets1,
        EnabledRandomSets ed Sets percentage draws = .done (err, ed1, Sets1) →
        err = none ∧ Sets1.length = Sets.length ∧
        scaleInt percentage.Min (Sets.length : Int) ≤ (enabledCount Sets1 : Int) ∧
        (enabledCount Sets1 : Int) < scaleInt percentage.Max (Sets.length : Int)) ∧
    (∀ σ, Fair Sets.length σ →
        ∃ n ed1 Sets1,
          EnabledRandomSets ed Sets percentage (window σ 0 n) = .done (none, ed1, Sets1)) ∧
    (⌊roundFloat64 percentage.Min * (Sets.length : ℚ)⌋ ≤ scaleInt percentage.Min (Sets.length : Int) ∧
      scaleInt percentage.Min (Sets.length : Int) ≤ ⌈roundFloat64 percentage.Min * (Sets.length : ℚ)⌉ ∧
      ⌊roundFloat64 percentage.Max * (Sets.length : ℚ)⌋ ≤ scaleInt percentage.Max (Sets.length : Int) ∧
      scaleInt percentage.Max (Sets.length : Int) ≤ ⌈roundFloat64 percentage.Max * (Sets.length : ℚ)⌉) := by
  have h1 : ¬ percentage.Min < 0 := not_lt.mpr hmin
  have h2 : ¬ percentage.Max > 1 := not_lt.mpr hmax
  have h3 : ¬ percentage.Min > percentage.Max := not_lt.mpr hle
  have bmin := scaleInt_bounds percentage.Min Sets.length hmin (le_trans hle hmax) hT
  have bmax := scaleInt_bounds percentage.Max Sets.length (le_trans hmin hle) hmax hT
  have hfl : (0 : Int) ≤ scaleInt percentage.Min (Sets.length : Int) := bmin.2.2.1
  have hfu : scaleInt percentage.Max (Sets.length : Int) ≤ (Sets.length : Int) := bmax.2.2.2
  refine ⟨?_, ?_, bmin.1, bmin.2.1, bmax.1, bmax.2.1⟩
  · clear bmin bmax
    set lo := scaleInt percentage.Min (Sets.length : Int) with hlo
    set hi := scaleInt percentage.Max (Sets.length : Int) with hhi
    have hpos : ¬ hi - lo ≤ 0 := by omega
    intro draws err ed1 Sets1 h
    unfold EnabledRandomSets at h
    simp only [h1, h2, h3, if_false, ← hlo, ← hhi, hpos] at h
    cases draws with
    | nil => cases h
    | cons d ds =>
      simp only at h
      split at h
      · rename_i ed2 Sets2 hloop
        cases h
        have hn := Intn_nonneg (hi - lo) d (by omega)
        have hl := Intn_lt (hi - lo) d (by omega)
        obtain ⟨hc, hlen⟩ := enableLoop_done _ _ _ _ _ _ hloop (by omega)
        simp only [enabledCount_disable, List.length_map] at hc hlen
        refine ⟨rfl, hlen, ?_, ?_⟩
        · rw [hc]; push_cast; omega
        · rw [hc]; push_cast; omega
      · cases h
      · cases h
  · clear bmin bmax
    set lo := scaleInt percentage.Min (Sets.length : Int) with hlo
    set hi := scaleInt percentage.Max (Sets.length : Int) with hhi
    have hpos : ¬ hi - lo ≤ 0 := by omega
    intro σ hfair
    unfold EnabledRandomSets
    simp only [h1, h2, h3, if_false, ← hlo, ← hhi, hpos]
    have hn := Intn_nonneg (hi - lo) (σ 0) (by omega)
    have hl := Intn_lt (hi - lo) (σ 0) (by omega)
    obtain ⟨m, res, hm⟩ := enableLoop_finishes (Intn (hi - lo) (σ 0) + lo) σ
      (Intn (hi - lo) (σ 0) + lo).toNat 1 0
      { ed with Stats := { ed.Stats with TotalSetsNum := Sets.length } }
      (Sets.map (fun set => { set with Enabled := false }))
      (by simp) (by simpa using hfair) (by omega)
      (by simp only [enabledCount_disable, List.length_map]; push_cast; omega)
    refine ⟨m + 1, res.1, res.2, ?_⟩
    rw [window_succ]
    simp only [Nat.zero_add, hm]

/-- C4, witness: ten templates and the range [0.6, 1.0]; the code computes the
bounds 6 and 10, and the enabled count is one of 6, 7, 8, 9. -/
theorem EnabledRandomSets_enables_count_witness :
    ((0 : ℚ) ≤ 6 / 10 ∧ (6 / 10 : ℚ) ≤ 1 ∧ (1 : ℚ) ≤ 1) ∧
    (scaleInt (6 / 10) 10 = 6 ∧ scaleInt 1 10 = 10) ∧
    EnabledRandomSets emptyEventsData tenSets ⟨6 / 10, 1⟩ [0, 0, 1, 1, 2, 3, 4, 5]
      = .done (none, cycledEventsData, cycledSets) ∧
    (∀ draws err ed1 Sets1,
        EnabledRandomSets emptyEventsData tenSets ⟨6 / 10, 1⟩ draws = .done (err, ed1, Sets1) →
        err = none ∧ Sets1.length = 10 ∧
        (6 : Int) ≤ (enabledCount Sets1 : Int) ∧ (enabledCount Sets1 : Int) < 10) ∧
    (∀ σ, Fair 10 σ →
        ∃ n ed1 Sets1,
          EnabledRandomSets emptyEventsData tenSets ⟨6 / 10, 1⟩ (window σ 0 n)
            = .done (none, ed1, Sets1)) := by
  have e1 : scaleInt (6 / 10) ((tenSets.length : Nat) : Int) = 6 := by decide!
  have e2 : scaleInt 1 ((tenSets.length : Nat) : Int) = 10 := by decide!
  have h := EnabledRandomSets_enables_count emptyEventsData tenSets ⟨6 / 10, 1⟩
    (by norm_num) (by norm_num) (by norm_num) (by decide) (by rw [e1, e2]; decide)
  simp only [e1, e2] at h
  exact ⟨⟨by norm_num, by norm_num, le_refl _⟩, ⟨by decide!, by decide!⟩, by decide!, h.1, h.2.1⟩

/-- C4, counterexample. On ten templates the valid range [0.5, 0.5] makes
`EnabledRandomSets` panic in `r.Intn(5 - 5)` for every sequence of draws. With
the range [0.6, 1.0] the call never returns on the sequence of draws that is
constantly zero. On fifty templates and the range [0.58, 0.7] the code computes
the lower bound `int(0.58 * 50.0) = 28` and a call returns with 28 templates
enabled, fewer than `floor(0.58 * 50) = 29`. On ten templates and the range
[0.3, 0.6] a call returns with 5 templates enabled, which is not below the floor
of the exact product of the `float64` nearest to 0.6 with 10. -/
theorem EnabledRandomSets_count_fails :
    (∀ draws, EnabledRandomSets emptyEventsData tenSets ⟨1 / 2, 1 / 2⟩ draws = .crash) ∧
    (∀ n, EnabledRandomSets emptyEventsData tenSets ⟨6 / 10, 1⟩ (window (fun _ => 0) 0 n)
        = .starved) ∧
    (scaleInt (58 / 100) 50 = 28 ∧
      EnabledRandomSets emptyEventsData fiftySets ⟨58 / 100, 7 / 10⟩ (0 :: List.range 28)
        = .done (none, fiftyEventsData, fiftyResult) ∧
      enabledCount fiftyResult = 28 ∧ ⌊(58 / 100 : ℚ) * 50⌋ = 29) ∧
    (scaleInt (6 / 10) 10 = 6 ∧
      EnabledRandomSets emptyEventsData tenSets ⟨3 / 10, 6 / 10⟩ [2, 0, 1, 2, 3, 4]
        = .done (none, fiveEventsData, fiveResult) ∧
      enabledCount fiveResult = 5 ∧ ⌊roundFloat64 (6 / 10) * 10⌋ = 5) := by
  have g1 : scaleInt (1 / 2) ((tenSets.length : Nat) : Int) = 5 := by decide!
  have g2 : scaleInt (6 / 10) ((tenSets.length : Nat) : Int) = 6 := by decide!
  have g3 : scaleInt 1 ((tenSets.length : Nat) : Int) = 10 := by decide!
  refine ⟨?_, ?_, ⟨by decide!, by decide!, by decide!, by decide!⟩,
    ⟨by decide!, by decide!, by decide!, by decide!⟩⟩
  · intro draws
    unfold EnabledRandomSets
    have a1 : ¬ ((1 / 2 : ℚ) < 0) := by norm_num
    have a2 : ¬ ((1 / 2 : ℚ) > 1) := by norm_num
    simp only [a1, a2, gt_iff_lt, lt_self_iff_false, if_false, g1]
    simp
  · intro n
    unfold EnabledRandomSets
    have a1 : ¬ ((6 / 10 : ℚ) < 0) := by norm_num
    have a2 : ¬ ((1 : ℚ) > 1) := by norm_num
    have a3 : ¬ ((6 / 10 : ℚ) > 1) := by norm_num
    have a4 : ¬ ((10 : Int) - 6 ≤ 0) := by decide
    simp only [a1, a2, a3, if_false, g2, g3, a4]
    cases n with
    | zero => rfl
    | succ m =>
      rw [window_succ]
      have a5 : Intn (10 - 6) 0 + 6 = 6 := by decide
      simp only [a5]
      have hloop : ∀ m pos, enableLoop 6 (window (fun _ => 0) pos m) 0
          { emptyEventsData with Stats := { emptyEventsData.Stats with
              TotalSetsNum := (tenSets.length : Nat) } }
          (tenSets.map (fun set => { set with Enabled := false })) = .starved := by
        intro m pos
        cases m with
        | zero => rfl
        | succ k =>
          have hstuck := enableLoop_stuck 6 (fun _ => 0) (0 + 1)
            { emptyEventsData with Stats := { emptyEventsData.Stats with
                TotalSetsNum := (tenSets.length : Nat)
                EnabledSetsNum := 0 + 1
                EnabledSets := [] ++ ["s0"] } }
            ((tenSets.map (fun set => { set with Enabled := false })).set 0 ⟨"s0", true⟩)
            (by decide) (by simp) (by simp [tenSets])
            (by intro q s hs; simp [tenSets] at hs; rw [← hs])
            k (pos + 1)
          rw [window_succ, enableLoop]
          exact hstuck
      rw [hloop]

/-- C5: `EnabledRandomSets` returns an error if and only if `percentage.Min < 0`,
or `percentage.Max > 1`, or `percentage.Min > percentage.Max`. -/
theorem EnabledRandomSets_error_iff (ed : EventsData) (Sets : List Set) (percentage : Interval)
    (draws : List Nat) :
    (∃ msg ed1 Sets1, EnabledRandomSets ed Sets percentage draws = .done (some msg, ed1, Sets1))
      ↔ (percentage.Min < 0 ∨ percentage.Max > 1 ∨ percentage.Min > percentage.Max) := by
  unfold EnabledRandomSets
  by_cases h1 : percentage.Min < 0
  · simp [h1]
  · by_cases h2 : percentage.Max > 1
    · simp [h1, h2]
    · by_cases h3 : percentage.Min > percentage.Max
      · simp [h1, h2, h3]
      · simp only [h1, h2, h3, if_false, or_self, iff_false]
        rintro ⟨msg, ed1, Sets1, h⟩
        split at h
        · cases h
        · split at h
          · cases h
          · split at h <;> cases h

/-- C6, the code at the failing input: a first cycle on a fresh receiver leaves
`EnabledSetsNum = 6` and six names in `EnabledSets`; the second cycle on that
state enables 7 of the 10 templates and returns with `EnabledSetsNum = 13` and
thirteen names in `EnabledSets`, three of them of templates that are not
enabled and three of them twice. -/
theorem EnabledRandomSets_second_cycle_stats :
    EnabledRandomSets emptyEventsData tenSets ⟨6 / 10, 1⟩ [0, 0, 1, 1, 2, 3, 4, 5]
      = .done (none, cycledEventsData, cycledSets) ∧
    EnabledRandomSets cycledEventsData cycledSets ⟨6 / 10, 1⟩ [1, 9, 8, 7, 6, 5, 4, 3]
      = .done (none, recycledEventsData, recycledSets) ∧
    recycledEventsData.Stats.TotalSetsNum = 10 ∧
    enabledCount recycledSets = 7 ∧
    enabledNames recycledSets = ["s3", "s4", "s5", "s6", "s7", "s8", "s9"] ∧
    recycledEventsData.Stats.EnabledSetsNum = 13 ∧
    recycledEventsData.Stats.EnabledSets
      = ["s0", "s1", "s2", "s3", "s4", "s5", "s9", "s8", "s7", "s6", "s5", "s4", "s3"] := by
  refine ⟨by decide!, by decide!, by decide, by decide, by decide, by decide, by decide⟩

/-- C7: when presences that name the same effect give it the same class key and
`AssignRandomEffects` reaches the placement phase, the sum of the targets in
`effectsAmountToApply` over the active multiplicative effects is at most
`Stats.EnabledEventsNum`, and so is the sum over the active additive effects. -/
theorem planEffects_targets_bounded (ed : EventsData) (effects : List EffectPresence)
    (draws : List Nat) (p : Plan) (ds : List Nat)
    (hcons : KeysConsistent effects)
    (h : planEffects ed effects draws = .done (p, ds)) :
    effectTargetSum p.effectsAmountToApply p.multiplierEffectsNames
      ≤ ed.Stats.EnabledEventsNum ∧
    effectTargetSum p.effectsAmountToApply p.additiveEffectsNames
      ≤ ed.Stats.EnabledEventsNum := by
  obtain ⟨hs, hm, ha⟩ := planEffects_done ed effects draws p ds h
  have hk0 : KeyInv effects emptyPlan :=
    ⟨by simp [emptyPlan], by simp [emptyPlan], by simp [emptyPlan, StrMap.get?]⟩
  have hinv := sizeEffects_effectSumInv _ effects hcons effects draws emptyPlan _ hs hk0
    ⟨by simp [emptyPlan, StrMap.get?], by simp [emptyPlan, StrMap.get?],
      by simp [emptyPlan, effectTargetSum, targetSum],
      by simp [emptyPlan, effectTargetSum, targetSum]⟩
    (fun q hq => hq)
  exact ⟨hinv.mult_sum ▸ hm, hinv.add_sum ▸ ha⟩

/-- C7, witness: ten enabled events and the same multiplicative presence listed
twice, sized to 5 and 5: the one effect "x" has the target 10. -/
theorem planEffects_targets_bounded_witness :
    KeysConsistent doubledPresences ∧
    planEffects (enabledCalendar 10) doubledPresences [0, 5, 0, 5] = .done (doubledPlan, []) ∧
    effectTargetSum doubledPlan.effectsAmountToApply doubledPlan.multiplierEffectsNames = 10 ∧
    (effectTargetSum doubledPlan.effectsAmountToApply doubledPlan.multiplierEffectsNames
        ≤ (enabledCalendar 10).Stats.EnabledEventsNum ∧
      effectTargetSum doubledPlan.effectsAmountToApply doubledPlan.additiveEffectsNames
        ≤ (enabledCalendar 10).Stats.EnabledEventsNum) :=
  ⟨by decide, by decide!, by decide,
    planEffects_targets_bounded (enabledCalendar 10) doubledPresences [0, 5, 0, 5]
      doubledPlan [] (by decide) (by decide!)⟩

/-- C8: if `Stats.EnabledEffectsNum` equals the sum of the values of
`Stats.EnabledEffects`, it does so after every single attachment and after every
call of `AssignRandomEffects` that returns. -/
theorem EnabledEffectsNum_eq_sum :
    (∀ ed eventName event effectName effect,
      ed.Stats.EnabledEffectsNum = ed.Stats.EnabledEffects.total →
      (attach ed eventName event effectName effect).Stats.EnabledEffectsNum
        = (attach ed eventName event effectName effect).Stats.EnabledEffects.total) ∧
    (∀ ed effects draws ed1, AssignRandomEffects ed effects draws = .done ed1 →
      ed.Stats.EnabledEffectsNum = ed.Stats.EnabledEffects.total →
      ed1.Stats.EnabledEffectsNum = ed1.Stats.EnabledEffects.total) := by
  constructor
  · intro ed eventName event effectName effect h
    exact attach_statsBalanced ed eventName event effectName effect h
  · intro ed effects draws ed1 h hbal
    unfold AssignRandomEffects at h
    split at h
    · cases h
    · cases h
    · rename_i p ds hp
      exact placeEffects_invariant statsBalanced p
        (fun n ed eventName event hi _ => attach_statsBalanced ed eventName event n _ hi)
        ds ed ed1 h hbal

/-- C8, witness: the calendar of two enabled events starts balanced (0 = 0) and
is balanced (2 = 1 + 1) after two attachments. -/
theorem EnabledEffectsNum_eq_sum_witness :
    (enabledCalendar 2).Stats.EnabledEffectsNum = (enabledCalendar 2).Stats.EnabledEffects.total ∧
    AssignRandomEffects (enabledCalendar 2) mixedPresences [0, 0, 0, 0, 0, 0]
      = .done mixedResult ∧
    mixedResult.Stats.EnabledEffectsNum = mixedResult.Stats.EnabledEffects.total :=
  ⟨by decide, by decide!,
    EnabledEffectsNum_eq_sum.2 (enabledCalendar 2) mixedPresences [0, 0, 0, 0, 0, 0] mixedResult
      (by decide!) (by decide)⟩

/-- C9: for every user store the triples of the ranking of the `/ranking` command
are a permutation of the (username, points, participations) triples of the
non-nil users of the store, and of two adjacent entries the earlier has strictly
more points, or equal points and no more participations; the users a (10, 2),
b (10, 1) and c (5, 5) are ranked b, a, c in whatever order the store is
visited, also when the store holds a nil user besides them. -/
theorem ranking_sorted_perm :
    (∀ Users : UserStore,
      ((ranking Users).map Rank.triple).Perm (nonNilTriples Users) ∧
      List.Chain' rankedBefore (ranking Users)) ∧
    (∀ Users ∈ threeUsers.permutations,
      ranking Users = [⟨"b", 10, 1⟩, ⟨"a", 10, 2⟩, ⟨"c", 5, 5⟩]) ∧
    (∀ Users ∈ ((4, none) :: threeUsers).permutations,
      ranking Users = [⟨"b", 10, 1⟩, ⟨"a", 10, 2⟩, ⟨"c", 5, 5⟩]) := by
  refine ⟨fun Users => ⟨?_, ?_⟩, by decide!, by decide!⟩
  · rw [← collectRanking_triples]
    exact (sortSlice_perm rankLess (collectRanking Users)).map Rank.triple
  · have h := sortSlice_chain rankLess rankLess_asymm (collectRanking Users)
    unfold ranking
    exact List.Chain'.imp (fun a b hab => (rankedBefore_iff a b).mpr hab) h

/-- C9, witness: the three users visited in the order a, b, c. -/
theorem ranking_sorted_perm_witness :
    ranking threeUsers = [⟨"b", 10, 1⟩, ⟨"a", 10, 2⟩, ⟨"c", 5, 5⟩] ∧
    ((ranking threeUsers).map Rank.triple).Perm [("a", 10, 2), ("b", 10, 1), ("c", 5, 5)] :=
  ⟨ranking_sorted_perm.2.1 threeUsers (List.mem_permutations.mpr (List.Perm.refl _)),
    (ranking_sorted_perm.1 threeUsers).1⟩

/-- C10 (amended): when `NewEventsData` reaches the end of its calendar loop,
`Stats.TotalEventsNum` equals `len(Keys)` and the number of valid minutes among
the 1440 minutes of the day, `Stats.EnabledEventsNum` equals the number of built
events whose `Enabled` flag is true, and `Stats.EnabledPointsSum` equals the sum
of the points of those events reduced modulo `2^64` into the range of `int`,
hence the sum itself whenever the sum lies in that range, for every validity
rule and event constructor. -/
theorem newCalendar_stats (Sets : List Set) (now : Nat → Time)
    (CalculateValid : List Set → Time → Bool) (NewEvent : List Set → Time → Event)
    (setDraws : List Nat) (ed : EventsData) (Sets1 : List Set)
    (h : newCalendar Sets now CalculateValid NewEvent setDraws = .done (ed, Sets1)) :
    ed.Stats.TotalEventsNum = ed.Keys.length ∧
    ed.Stats.TotalEventsNum
      = ((List.range (24 * 60)).filter
          (fun i => CalculateValid Sets1 (minuteOfDay now i))).length ∧
    ed.Stats.EnabledEventsNum
      = ((builtEvents now (CalculateValid Sets1) (NewEvent Sets1)).filter
          (fun e => e.Enabled)).length ∧
    ed.Stats.EnabledPointsSum
      = wrapInt (((builtEvents now (CalculateValid Sets1) (NewEvent Sets1)).filter
          (fun e => e.Enabled)).map (fun e => e.Points)).sum ∧
    (-2 ^ 63 ≤ (((builtEvents now (CalculateValid Sets1) (NewEvent Sets1)).filter
          (fun e => e.Enabled)).map (fun e => e.Points)).sum →
      (((builtEvents now (CalculateValid Sets1) (NewEvent Sets1)).filter
          (fun e => e.Enabled)).map (fun e => e.Points)).sum < 2 ^ 63 →
      ed.Stats.EnabledPointsSum
        = (((builtEvents now (CalculateValid Sets1) (NewEvent Sets1)).filter
            (fun e => e.Enabled)).map (fun e => e.Points)).sum) := by
  unfold newCalendar at h
  cases hsets : EnabledRandomSets emptyEventsData Sets ⟨6 / 10, 1⟩ setDraws with
  | crash => rw [hsets] at h; cases h
  | starved => rw [hsets] at h; cases h
  | done res =>
    obtain ⟨err, ed0, Sets0⟩ := res
    rw [hsets] at h
    simp only [Run.done.injEq, Prod.mk.injEq] at h
    obtain ⟨hed, hS⟩ := h
    subst hS
    obtain ⟨_, hk, ht, he, hp, _, _⟩ := EnabledRandomSets_frame _ _ _ _ _ _ _ hsets
    obtain ⟨h1, h2, h3, h4⟩ := buildCalendar_stats now (CalculateValid Sets0) (NewEvent Sets0) ed0
      (by rw [hp]; decide)
    rw [hed] at h1 h2 h3 h4
    rw [hk] at h1
    rw [ht] at h2
    rw [he] at h3
    rw [hp] at h4
    have hlen : (builtEvents now (CalculateValid Sets0) (NewEvent Sets0)).length
        = ((List.range (24 * 60)).filter
            (fun i => CalculateValid Sets0 (minuteOfDay now i))).length := by
      unfold builtEvents
      exact List.length_map _ _
    have h4a : ed.Stats.EnabledPointsSum
        = wrapInt (((builtEvents now (CalculateValid Sets0) (NewEvent Sets0)).filter
            (fun e => e.Enabled)).map (fun e => e.Points)).sum := by
      rw [h4]
      simp only [emptyEventsData, zero_add, enabledPoints]
    refine ⟨?_, ?_, ?_, h4a, ?_⟩
    · rw [h2, h1]
      simp only [emptyEventsData, List.nil_append, List.length_map, zero_add]
    · rw [h2, hlen]
      simp only [emptyEventsData, zero_add]
    · rw [h3]
      simp only [emptyEventsData, zero_add, enabledEvents]
    · intro hlo hhi
      rw [h4a]
      exact wrapInt_of_range _ hlo hhi

/-- C10, witness: ten templates, three valid minutes, two of them with an
enabled event worth 1 and 6 points. -/
theorem newCalendar_stats_witness :
    newCalendar tenSets fixedNow sampleValid sampleEvent [0, 0, 1, 1, 2, 3, 4, 5]
      = .done (sampleCalendar, cycledSets) ∧
    sampleCalendar.Stats.TotalEventsNum = 3 ∧ sampleCalendar.Keys.length = 3 ∧
    sampleCalendar.Stats.EnabledEventsNum = 2 ∧ sampleCalendar.Stats.EnabledPointsSum = 7 ∧
    (sampleCalendar.Stats.TotalEventsNum = sampleCalendar.Keys.length ∧
      sampleCalendar.Stats.TotalEventsNum
        = ((List.range (24 * 60)).filter
            (fun i => sampleValid cycledSets (minuteOfDay fixedNow i))).length ∧
      sampleCalendar.Stats.EnabledEventsNum
        = ((builtEvents fixedNow (sampleValid cycledSets) (sampleEvent cycledSets)).filter
            (fun e => e.Enabled)).length ∧
      sampleCalendar.Stats.EnabledPointsSum
        = wrapInt (((builtEvents fixedNow (sampleValid cycledSets) (sampleEvent cycledSets)).filter
            (fun e => e.Enabled)).map (fun e => e.Points)).sum ∧
      (-2 ^ 63 ≤ (((builtEvents fixedNow (sampleValid cycledSets) (sampleEvent cycledSets)).filter
            (fun e => e.Enabled)).map (fun e => e.Points)).sum →
        (((builtEvents fixedNow (sampleValid cycledSets) (sampleEvent cycledSets)).filter
            (fun e => e.Enabled)).map (fun e => e.Points)).sum < 2 ^ 63 →
        sampleCalendar.Stats.EnabledPointsSum
          = (((builtEvents fixedNow (sampleValid cycledSets) (sampleEvent cycledSets)).filter
              (fun e => e.Enabled)).map (fun e => e.Points)).sum)) :=
  ⟨by decide!, by decide, by decide, by decide, by decide,
    newCalendar_stats tenSets fixedNow sampleValid sampleEvent [0, 0, 1, 1, 2, 3, 4, 5]
      sampleCalendar cycledSets (by decide!)⟩

/-- C10, counterexample: with an event constructor that makes every event
enabled and worth `2^62` points, three valid minutes give three enabled events
whose points sum to `3 * 2^62`, while the loop leaves
`Stats.EnabledPointsSum = -2^62`: the second addition passes `2^63 - 1` and
wraps around. -/
theorem newCalendar_points_sum_wraps :
    newCalendar tenSets fixedNow sampleValid heavyEvent [0, 0, 1, 1, 2, 3, 4, 5]
      = .done (heavyCalendar, cycledSets) ∧
    heavyCalendar.Stats.EnabledEventsNum = 3 ∧
    heavyCalendar.Stats.EnabledPointsSum = -2 ^ 62 ∧
    (((builtEvents fixedNow (sampleValid cycledSets) (heavyEvent cycledSets)).filter
        (fun e => e.Enabled)).map (fun e => e.Points)).sum = 3 * 2 ^ 62 := by
  refine ⟨by decide!, by decide, by decide, by decide!⟩

/-- C11: if every event holds at most two effects, so does every event after a
single attachment that passes a capacity test, and after every call of
`AssignRandomEffects` that returns. -/
theorem AssignRandomEffects_at_most_two :
    (∀ ed eventName event effectName effect,
      atMostTwoEffects ed →
      (fitsMultiplier event.Effects.length = true ∨ fitsAdditive event.Effects.length = true) →
      atMostTwoEffects (attach ed eventName event effectName effect)) ∧
    (∀ ed effects draws ed1, AssignRandomEffects ed effects draws = .done ed1 →
      atMostTwoEffects ed → atMostTwoEffects ed1) := by
  refine ⟨fun ed eventName event effectName effect h hfit =>
    attach_length_le_two ed eventName event effectName effect h hfit, ?_⟩
  intro ed effects draws ed1 h hinv
  unfold AssignRandomEffects at h
  split at h
  · cases h
  · cases h
  · rename_i p ds hp
    unfold placeEffects at h
    split at h
    · cases h
    · cases h
    · rename_i edm dsm hm
      have h1 : atMostTwoEffects edm :=
        placeAll_invariant atMostTwoEffects fitsMultiplier p _
          (fun n _ ed0 eventName event hi _ _ hfit =>
            attach_length_le_two ed0 eventName event n _ hi (Or.inl hfit))
          _ _ _ hm hinv
      split at h
      · cases h
      · cases h
      · rename_i eda dsa ha
        cases h
        exact placeAll_invariant atMostTwoEffects fitsAdditive p _
          (fun n _ ed0 eventName event hi _ _ hfit =>
            attach_length_le_two ed0 eventName event n _ hi (Or.inr hfit))
          _ _ _ ha h1

/-- C11, witness: the calendar of two events without effects, and the two
attachments of `mixedPresences`. -/
theorem AssignRandomEffects_at_most_two_witness :
    atMostTwoEffects (enabledCalendar 2) ∧
    AssignRandomEffects (enabledCalendar 2) mixedPresences [0, 0, 0, 0, 0, 0]
      = .done mixedResult ∧
    atMostTwoEffects mixedResult := by
  have h0 : atMostTwoEffects (enabledCalendar 2) := by
    intro name event h
    rw [enabledCalendar_no_effects 2 name event h]
    decide
  exact ⟨h0, by decide!,
    AssignRandomEffects_at_most_two.2 (enabledCalendar 2) mixedPresences [0, 0, 0, 0, 0, 0]
      mixedResult (by decide!) h0⟩

/-- C12, the code at the failing input: a rebalancing loop whose group sum
exceeds `E` returns for no names, targets and draws, because its condition reads
a sum that its body does not change; with ten enabled events and two
multiplicative presences sized to 9 and 9 (sum 18), `AssignRandomEffects`
returns for no continuation of the draws. -/
theorem rebalance_never_returns :
    (∀ (E : Int) (k : Nat) (ds : List Nat) (names : List String) (amounts : StrMap Int)
        (res : List String × StrMap Int × List Nat),
      rebalance E (E + 1 + k) ds names amounts ≠ .done res) ∧
    (sizeEffects (enabledCalendar 10).Stats.EnabledEventsNum overfullPresences [0, 9, 0, 9]
        emptyPlan = .done (overfullPlan, []) ∧
      ∀ (draws : List Nat) (ed1 : EventsData),
        AssignRandomEffects (enabledCalendar 10) overfullPresences ([0, 9, 0, 9] ++ draws)
          ≠ .done ed1) := by
  have hsz : sizeEffects (enabledCalendar 10).Stats.EnabledEventsNum overfullPresences
      [0, 9, 0, 9] emptyPlan = .done (overfullPlan, []) := by decide!
  refine ⟨fun E k ds names amounts res => rebalance_entered E k ds names amounts res, hsz, ?_⟩
  intro draws ed1 h
  have hsz2 := sizeEffects_append _ draws _ _ _ _ _ hsz
  unfold AssignRandomEffects planEffects at h
  rw [hsz2] at h
  simp only [List.nil_append] at h
  cases hr : rebalance (enabledCalendar 10).Stats.EnabledEventsNum
      overfullPlan.multiplierToApplyNum draws overfullPlan.multiplierEffectsNames
      overfullPlan.effectsAmountToApply with
  | done res =>
    exact rebalance_entered 10 7 draws _ _ res hr
  | crash => rw [hr] at h; cases h
  | starved => rw [hr] at h; cases h

/-- C13 (amended): on a calendar whose events all start without effects, and for
presences that give each effect name one class key, after a finished
`AssignRandomEffects` the effect list of every event either has no repeated
entry or consists of one additive effect attached twice. -/
theorem AssignRandomEffects_repeats_only_additive (ed : EventsData)
    (effects : List EffectPresence) (draws : List Nat) (ed1 : EventsData)
    (hstart : ∀ name event, ed.Map.get? name = some event → event.Effects = [])
    (hcons : KeysConsistent effects)
    (h : AssignRandomEffects ed effects draws = .done ed1) :
    ∀ name event, ed1.Map.get? name = some event →
      event.Effects.Nodup ∨ ∃ a, a.isAdditive ∧ event.Effects = [some a, some a] := by
  unfold AssignRandomEffects at h
  split at h
  · cases h
  · cases h
  · rename_i p ds hp
    obtain ⟨hs, _, _⟩ := planEffects_done ed effects draws p ds hp
    have hk : KeyInv effects p := sizeEffects_keyInv _ effects hcons effects draws emptyPlan _ hs
      ⟨by simp [emptyPlan], by simp [emptyPlan], by simp [emptyPlan, StrMap.get?]⟩
      (fun q hq => hq)
    intro name event hev
    rcases placeEffects_shapes p ds ed ed1 hk.mult hk.add hstart h name event hev with
      (h0 | ⟨m, hm, _⟩ | ⟨a, ha, _⟩ | ⟨a, b, hab, haa, _⟩) | ⟨m, a, hma, hmm, haa⟩
    · left; rw [h0]; exact List.nodup_nil
    · left; rw [hm]; exact List.nodup_singleton _
    · left; rw [ha]; exact List.nodup_singleton _
    · by_cases heq : a = b
      · right; exact ⟨a, haa, by rw [hab, heq]⟩
      · left; rw [hab]; simp [heq]
    · left; rw [hma]
      have := isMultiplier_not_isAdditive m a hmm haa
      simp [this]

/-- C13, witness: four enabled events and one additive presence sized to 2, both
units drawn onto event "0". -/
theorem AssignRandomEffects_repeats_only_additive_witness :
    (∀ name event, (enabledCalendar 4).Map.get? name = some event → event.Effects = []) ∧
    KeysConsistent additivePresences ∧
    AssignRandomEffects (enabledCalendar 4) additivePresences [0, 0, 0, 0] = .done twiceResult ∧
    (∀ name event, twiceResult.Map.get? name = some event →
      event.Effects.Nodup ∨ ∃ a, a.isAdditive ∧ event.Effects = [some a, some a]) :=
  ⟨enabledCalendar_no_effects 4, by decide, by decide!,
    AssignRandomEffects_repeats_only_additive (enabledCalendar 4) additivePresences [0, 0, 0, 0]
      twiceResult (enabledCalendar_no_effects 4) (by decide) (by decide!)⟩

/-- C13, counterexample: on four enabled events without effects, with one
additive presence sized to 2 and all draws zero, the call returns and event "0"
holds the effect AddOnePoint twice. -/
theorem AssignRandomEffects_attaches_effect_twice :
    (∀ name event, (enabledCalendar 4).Map.get? name = some event → event.Effects = []) ∧
    AssignRandomEffects (enabledCalendar 4) additivePresences [0, 0, 0, 0] = .done twiceResult ∧
    twiceResult.Map.get? "0"
      = some ⟨"0", 1, true, [some ⟨"AddOnePoint", "+"⟩, some ⟨"AddOnePoint", "+"⟩]⟩ ∧
    ¬ ([some ⟨"AddOnePoint", "+"⟩, some ⟨"AddOnePoint", "+"⟩] : List (Option Effect)).Nodup := by
  refine ⟨enabledCalendar_no_effects 4, by decide!, by decide, by decide⟩

/-- C14: assume every event starts with no effects, `Stats.EnabledEventsNum` is
the number of enabled events reachable through `Keys`, the presences name
pairwise distinct effects, and no amount interval starts below zero (the data
model has both bounds in [0, 1]). Then, whenever the placement phase is reached
(the two target sums are at most `EnabledEventsNum`), at every step of the
multiplicative loops and of the additive loops at which the effect has units
left to place, the candidate pool is not empty. -/
theorem placement_pool_never_exhausted (ed : EventsData) (effects : List EffectPresence)
    (draws : List Nat) (p : Plan) (ds : List Nat)
    (hstart : ∀ name event, ed.Map.get? name = some event → event.Effects = [])
    (hE : ed.Stats.EnabledEventsNum = (enabledKeys ed).length)
    (hnames : (effects.map (fun q => q.Effect.Name)).Nodup)
    (hamount : ∀ q ∈ effects, 0 ≤ q.Amount.Min)
    (hplan : planEffects ed effects draws = .done (p, ds)) :
    (∀ h ∈ placeAllHeads fitsMultiplier p p.multiplierEffectsNames ds ed,
      h.2.1 < p.effectsAmountToApply.getI h.1 → candidatePool fitsMultiplier h.2.2 ≠ []) ∧
    (∀ ed1 ds1, placeAll fitsMultiplier p p.multiplierEffectsNames ds ed = .done (ed1, ds1) →
      ∀ h ∈ placeAllHeads fitsAdditive p p.additiveEffectsNames ds1 ed1,
        h.2.1 < p.effectsAmountToApply.getI h.1 → candidatePool fitsAdditive h.2.2 ≠ []) := by
  obtain ⟨hs, hm, ha⟩ := planEffects_done ed effects draws p ds hplan
  obtain ⟨seen, hinv⟩ := sizeEffects_sizingInv _ effects draws emptyPlan [] _ hs
    ⟨by simp [emptyPlan], by simp [emptyPlan], by simp [emptyPlan, StrMap.get?],
      by simp [emptyPlan, targetSum], by simp [emptyPlan, targetSum]⟩
    hnames (by simp)
  have hE0 : (0 : Int) ≤ ed.Stats.EnabledEventsNum := by rw [hE]; exact Int.natCast_nonneg _
  have hpos : ∀ n, 0 ≤ p.effectsAmountToApply.getI n :=
    sizeEffects_nonneg _ hE0 effects draws emptyPlan _ hs hamount
      (by intro n; simp [emptyPlan, StrMap.getI, StrMap.get?])
  constructor
  · apply placeAllHeads_pool multiplierRoom fitsMultiplier p
      (fun effect e he hf => multiplierRoom_step effect e he hf) multiplierRoom_pos hpos
    have := enabledKeys_le_multiplier ed hstart
    have hsum : targetSum p.effectsAmountToApply p.multiplierEffectsNames
        = p.multiplierToApplyNum := hinv.mult_sum
    rw [hsum]
    omega
  · intro ed1 ds1 hdone
    have hinv1 : (∀ name event, ed1.Map.get? name = some event → event.Effects.length ≤ 1) ∧
        enabledKeys ed1 = enabledKeys ed := by
      refine placeAll_invariant
        (fun e => (∀ name event, e.Map.get? name = some event → event.Effects.length ≤ 1) ∧
          enabledKeys e = enabledKeys ed)
        fitsMultiplier p _ ?_ _ _ _ hdone
        ⟨fun name event hg => by rw [hstart name event hg]; simp, rfl⟩
      intro n _ e0 eventName event hi hget _ hfit
      refine ⟨?_, ?_⟩
      · intro name ev hev
        rw [attach_get?] at hev
        split at hev
        · cases hev
          simp [fitsMultiplier] at hfit
          simp [Event.AddEffect, hfit]
        · exact hi.1 name ev hev
      · rw [attach_enabledKeys _ _ _ _ _ hget]
        exact hi.2
    apply placeAllHeads_pool additiveRoom fitsAdditive p
      (fun effect e he hf => additiveRoom_step effect e he hf) additiveRoom_pos hpos
    have := enabledKeys_le_additive ed1 hinv1.1
    rw [hinv1.2] at this
    have hsum : targetSum p.effectsAmountToApply p.additiveEffectsNames
        = p.additiveToApplyNum := hinv.add_sum
    rw [hsum]
    omega

/-- C14, witness: two enabled events, a multiplicative and an additive presence
sized to 1 and 1. -/
theorem placement_pool_never_exhausted_witness :
    ((∀ name event, (enabledCalendar 2).Map.get? name = some event → event.Effects = []) ∧
      (enabledCalendar 2).Stats.EnabledEventsNum = (enabledKeys (enabledCalendar 2)).length ∧
      (mixedPresences.map (fun q => q.Effect.Name)).Nodup ∧
      (∀ q ∈ mixedPresences, 0 ≤ q.Amount.Min) ∧
      planEffects (enabledCalendar 2) mixedPresences [0, 0, 0, 0, 0, 0]
        = .done (mixedPlan, [0, 0])) ∧
    ((∀ h ∈ placeAllHeads fitsMultiplier mixedPlan mixedPlan.multiplierEffectsNames [0, 0]
          (enabledCalendar 2),
        h.2.1 < mixedPlan.effectsAmountToApply.getI h.1 →
          candidatePool fitsMultiplier h.2.2 ≠ []) ∧
      (∀ ed1 ds1,
        placeAll fitsMultiplier mixedPlan mixedPlan.multiplierEffectsNames [0, 0]
          (enabledCalendar 2) = .done (ed1, ds1) →
        ∀ h ∈ placeAllHeads fitsAdditive mixedPlan mixedPlan.additiveEffectsNames ds1 ed1,
          h.2.1 < mixedPlan.effectsAmountToApply.getI h.1 →
            candidatePool fitsAdditive h.2.2 ≠ [])) :=
  ⟨⟨enabledCalendar_no_effects 2, by decide!, by decide, by decide!, by decide!⟩,
    placement_pool_never_exhausted (enabledCalendar 2) mixedPresences [0, 0, 0, 0, 0, 0]
      mixedPlan [0, 0] (enabledCalendar_no_effects 2) (by decide!) (by decide) (by decide!)
      (by decide!)⟩

/-- C15, the code at the failing input: ten enabled events and the same additive
presence listed twice, sized to 2 and 2. The placement phase is entered with the
one target 4 for "AddOnePoint" and two entries of that name, and the finished
call has counted 8 units of it in `Stats.EnabledEffects`, which held none. -/
theorem AssignRandomEffects_repeated_presence_units :
    planEffects (enabledCalendar 10) repeatedPresences [0, 2, 0, 2, 0, 1, 2, 3, 4, 5, 6, 7]
      = .done (repeatedPlan, [0, 1, 2, 3, 4, 5, 6, 7]) ∧
    repeatedPlan.effectsAmountToApply.getI "AddOnePoint" = 4 ∧
    (enabledCalendar 10).Stats.EnabledEffects.getI "AddOnePoint" = 0 ∧
    unitsCounted
      (AssignRandomEffects (enabledCalendar 10) repeatedPresences
        [0, 2, 0, 2, 0, 1, 2, 3, 4, 5, 6, 7]) "AddOnePoint" = some 8 := by
  refine ⟨by decide!, by decide, by decide, by decide!⟩

/-- C16: a call of `AssignRandomEffects` that returns leaves `Keys` and the keys
of `Map` as they were, keeps the `Enabled` flag of every event, and keeps the
effect list of every event whose `Enabled` flag is false. -/
theorem AssignRandomEffects_frame (ed : EventsData) (effects : List EffectPresence)
    (draws : List Nat) (ed1 : EventsData)
    (h : AssignRandomEffects ed effects draws = .done ed1) :
    ed1.Keys = ed.Keys ∧ ed1.Map.map Prod.fst = ed.Map.map Prod.fst ∧
    ∀ name event, ed.Map.get? name = some event →
      ∃ event1, ed1.Map.get? name = some event1 ∧ event1.Enabled = event.Enabled ∧
        (event.Enabled = false → event1.Effects = event.Effects) := by
  unfold AssignRandomEffects at h
  split at h
  · cases h
  · cases h
  · rename_i p ds hp
    exact placeEffects_invariant_enabled (frameOf ed) p
      (fun n ed0 eventName event hi hg hen => attach_frameOf ed ed0 eventName event n _ hi hg hen)
      ds ed ed1 h ⟨rfl, rfl, fun name event0 h0 => ⟨event0, h0, rfl, fun _ => rfl⟩⟩

/-- C16, witness: three events, the second disabled and drawn first by the
multiplicative loop. -/
theorem AssignRandomEffects_frame_witness :
    AssignRandomEffects partCalendar mixedPresences [0, 0, 0, 0, 1, 0, 1, 2] = .done partResult ∧
    (partResult.Keys = partCalendar.Keys ∧
      partResult.Map.map Prod.fst = partCalendar.Map.map Prod.fst ∧
      ∀ name event, partCalendar.Map.get? name = some event →
        ∃ event1, partResult.Map.get? name = some event1 ∧ event1.Enabled = event.Enabled ∧
          (event.Enabled = false → event1.Effects = event.Effects)) :=
  ⟨by decide!,
    AssignRandomEffects_frame partCalendar mixedPresences [0, 0, 0, 0, 1, 0, 1, 2] partResult
      (by decide!)⟩

/-- C17: for every non-empty list `s` and value `v`, `RemoveValue(s, v)` returns
`len(s)-1` empty strings followed by the elements of `s` that differ from `v`, in
their order; for `len(s) >= 2` this is not the list obtained by filtering `v`
out of `s`, and it contains the empty string. -/
theorem RemoveValue_spurious_entries (s : List String) (v : String) (hs : s ≠ []) :
    RemoveValue s v
      = some (List.replicate (s.length - 1) "" ++ s.filter (fun x => decide (x ≠ v))) ∧
    (2 ≤ s.length →
      RemoveValue s v ≠ some (s.filter (fun x => decide (x ≠ v))) ∧
      ∃ r, RemoveValue s v = some r ∧ "" ∈ r ∧
        r.length = s.length - 1 + (s.filter (fun x => decide (x ≠ v))).length) := by
  have hlen : s.length ≠ 0 := by simpa using hs
  have heq : RemoveValue s v
      = some (List.replicate (s.length - 1) "" ++ s.filter (fun x => decide (x ≠ v))) := by
    unfold RemoveValue
    rw [if_neg hlen, RemoveValue_loop]
  refine ⟨heq, fun h2 => ⟨?_, _, heq, ?_, ?_⟩⟩
  · rw [heq]
    intro h
    have := congrArg (fun o => (o.map List.length).getD 0) h
    simp at this
    omega
  · apply List.mem_append_left
    rw [List.mem_replicate]
    exact ⟨by omega, rfl⟩
  · simp

/-- C17, witness: removing "a" from a, b, a gives two empty strings and b. -/
theorem RemoveValue_spurious_entries_witness :
    (["a", "b", "a"] : List String) ≠ [] ∧
    RemoveValue ["a", "b", "a"] "a" = some ["", "", "b"] := by
  refine ⟨by decide, ?_⟩
  have h := (RemoveValue_spurious_entries ["a", "b", "a"] "a" (by decide)).1
  simpa using h

/-- C18, the code at the failing input: on a store with one user, `/update user`
with that user's name and an integer stores a user with the new points and the
old name and counters, but with `TelegramID = 0` and no effects; the user with
Telegram id 42 and one active effect loses both. -/
theorem updateUserCommand_drops_fields :
    (∀ (id : Int) (u : User) (points : Int),
      updateUserCommand [(id, some u)] u.UserName (some points)
        = .done ([(id, some ⟨0, u.UserName, points, u.TotalEventPartecipations,
            u.TotalEventWins, u.TotalChampionshipPartecipations, u.TotalChampionshipWins,
            []⟩)], "Utente aggiornato")) ∧
    updateUserCommand [(42, some sampleUser)] "a" (some 7)
      = .done ([(42, some ⟨0, "a", 7, 2, 1, 0, 0, []⟩)], "Utente aggiornato") ∧
    sampleUser.TelegramID = 42 ∧ sampleUser.Effects = [some ⟨"AddOnePoint", "+"⟩] := by
  refine ⟨?_, by decide, by decide, by decide⟩
  intro id u points
  simp [updateUserCommand, findUserKey, UserStore.get?, UserStore.set]

end Clockyuwu
